import Mathlib

/-!
Verification of the dispatcher routing package: a shallow embedding of the
route-template compiler (`NewRoute`) and of the `Router` dispatch loop,
together with proofs of the specification's claims about them.

Machine strings are modelled as `List Char`; the `regexp` standard-library
collaborator (RE2 syntax, boolean `MatchString` acceptance) is modelled by an
executable regular-expression datatype `Regex` with a Brzozowski-derivative
matcher, proved correct against a declarative language semantics `Regex.Lang`.
-/

set_option maxRecDepth 4000

namespace Dispatcher

/-- Word-character test of the Go regexp class `\w`, i.e. `[0-9A-Za-z_]`. -/
def isWordChar (c : Char) : Bool :=
  ('a' ≤ c && c ≤ 'z') || ('A' ≤ c && c ≤ 'Z') || ('0' ≤ c && c ≤ '9') || c = '_'

/-- One item of a regexp character class: a single character or a range. -/
inductive ClassItem where
  | single (c : Char)
  | range (lo hi : Char)
deriving DecidableEq, Repr

/-- Does character `c` match one class item? -/
def classItemMatch (c : Char) : ClassItem → Bool
  | .single a => c = a
  | .range lo hi => lo ≤ c && c ≤ hi

/-- Does `c` match the (possibly negated) class with the given items? -/
def classMatch (neg : Bool) (items : List ClassItem) (c : Char) : Bool :=
  (items.any (classItemMatch c)) != neg

/-- Regular expressions, the compiled form of a route matcher.  `anyChar` is
the RE2 `.` (any character except newline); `cls` is a character class.
Capture-group structure is irrelevant to boolean acceptance and is erased:
both `(...)` and `(?:...)` compile to the inner expression, and lazy
quantifiers `+?`, `*?`, `??` accept the same strings as their greedy forms. -/
inductive Regex where
  | fail
  | eps
  | char (c : Char)
  | anyChar
  | cls (neg : Bool) (items : List ClassItem)
  | cat (a b : Regex)
  | alt (a b : Regex)
  | star (a : Regex)
deriving DecidableEq, Repr

/-- Smart concatenation constructor used by the derivative matcher. -/
def mkCat : Regex → Regex → Regex
  | .fail, _ => .fail
  | _, .fail => .fail
  | .eps, b => b
  | a, .eps => a
  | a, b => .cat a b

/-- Smart alternation constructor used by the derivative matcher. -/
def mkAlt : Regex → Regex → Regex
  | .fail, b => b
  | a, .fail => a
  | a, b => .alt a b

/-- Does the regex accept the empty string? -/
def Regex.nullable : Regex → Bool
  | .fail => false
  | .eps => true
  | .char _ => false
  | .anyChar => false
  | .cls _ _ => false
  | .cat a b => a.nullable && b.nullable
  | .alt a b => a.nullable || b.nullable
  | .star _ => true

/-- Brzozowski derivative of a regex with respect to one character. -/
def Regex.deriv : Regex → Char → Regex
  | .fail, _ => .fail
  | .eps, _ => .fail
  | .char a, c => if a = c then .eps else .fail
  | .anyChar, c => if c = '\n' then .fail else .eps
  | .cls n its, c => if classMatch n its c then .eps else .fail
  | .cat a b, c =>
      if a.nullable then mkAlt (mkCat (a.deriv c) b) (b.deriv c) else mkCat (a.deriv c) b
  | .alt a b, c => mkAlt (a.deriv c) (b.deriv c)
  | .star a, c => mkCat (a.deriv c) (.star a)

/-- Executable acceptance test: fold the derivative over the string and test
nullability.  This models the boolean result of Go's `MatchString` on a
pattern anchored at both ends. -/
def Regex.rmatch (r : Regex) (s : List Char) : Bool :=
  (s.foldl Regex.deriv r).nullable

/-- Declarative language semantics of `Regex`. -/
def Regex.Lang : Regex → List Char → Prop
  | .fail, _ => False
  | .eps, s => s = []
  | .char a, s => s = [a]
  | .anyChar, s => ∃ c, s = [c] ∧ c ≠ '\n'
  | .cls n its, s => ∃ c, s = [c] ∧ classMatch n its c = true
  | .cat a b, s => ∃ t u, s = t ++ u ∧ a.Lang t ∧ b.Lang u
  | .alt a b, s => a.Lang s ∨ b.Lang s
  | .star a, s => ∃ parts : List (List Char), s = parts.flatten ∧ ∀ p ∈ parts, p ≠ [] ∧ a.Lang p

/-! ### Correctness of the derivative matcher against `Lang` -/

theorem lang_fail (s : List Char) : Regex.fail.Lang s ↔ False := Iff.rfl

theorem lang_eps (s : List Char) : Regex.eps.Lang s ↔ s = [] := Iff.rfl

theorem lang_char (a : Char) (s : List Char) : (Regex.char a).Lang s ↔ s = [a] := Iff.rfl

theorem lang_anyChar (s : List Char) :
    Regex.anyChar.Lang s ↔ ∃ c, s = [c] ∧ c ≠ '\n' := Iff.rfl

theorem lang_cls (n : Bool) (its : List ClassItem) (s : List Char) :
    (Regex.cls n its).Lang s ↔ ∃ c, s = [c] ∧ classMatch n its c = true := Iff.rfl

theorem lang_cat (a b : Regex) (s : List Char) :
    (Regex.cat a b).Lang s ↔ ∃ t u, s = t ++ u ∧ a.Lang t ∧ b.Lang u := Iff.rfl

theorem lang_alt (a b : Regex) (s : List Char) :
    (Regex.alt a b).Lang s ↔ a.Lang s ∨ b.Lang s := Iff.rfl

theorem lang_star (a : Regex) (s : List Char) :
    (Regex.star a).Lang s ↔
      ∃ parts : List (List Char), s = parts.flatten ∧ ∀ p ∈ parts, p ≠ [] ∧ a.Lang p := Iff.rfl

theorem mkCat_lang (a b : Regex) (s : List Char) :
    (mkCat a b).Lang s ↔ (Regex.cat a b).Lang s := by
  have hfl : ∀ x : Regex, (Regex.cat Regex.fail x).Lang s ↔ False := by
    intro x; simp [lang_cat, lang_fail]
  have hfr : ∀ x : Regex, (Regex.cat x Regex.fail).Lang s ↔ False := by
    intro x; simp [lang_cat, lang_fail]
  have hel : ∀ x : Regex, (Regex.cat Regex.eps x).Lang s ↔ x.Lang s := by
    intro x
    constructor
    · rintro ⟨t, u, rfl, ht, hu⟩
      rw [lang_eps] at ht; subst ht; simpa using hu
    · intro h; exact ⟨[], s, rfl, rfl, h⟩
  have her : ∀ x : Regex, (Regex.cat x Regex.eps).Lang s ↔ x.Lang s := by
    intro x
    constructor
    · rintro ⟨t, u, rfl, ht, hu⟩
      rw [lang_eps] at hu; subst hu; simpa using ht
    · intro h; exact ⟨s, [], by simp, h, rfl⟩
  cases a <;> cases b
  all_goals simp only [mkCat]
  all_goals first
    | rfl
    | exact (hel _).symm
    | exact (her _).symm
    | simp [lang_cat, lang_fail]

theorem mkAlt_lang (a b : Regex) (s : List Char) :
    (mkAlt a b).Lang s ↔ (Regex.alt a b).Lang s := by
  cases a <;> cases b
  all_goals simp only [mkAlt]
  all_goals first
    | rfl
    | simp [lang_alt, lang_fail]

theorem nullable_iff_lang (r : Regex) : r.nullable = true ↔ r.Lang [] := by
  induction r with
  | fail => simp [Regex.nullable, lang_fail]
  | eps => simp [Regex.nullable, lang_eps]
  | char c => simp [Regex.nullable, lang_char]
  | anyChar => simp [Regex.nullable, lang_anyChar]
  | cls n its => simp [Regex.nullable, lang_cls]
  | cat a b iha ihb =>
      simp only [Regex.nullable, Bool.and_eq_true, lang_cat, iha, ihb]
      constructor
      · rintro ⟨ha, hb⟩; exact ⟨[], [], rfl, ha, hb⟩
      · rintro ⟨t, u, h, ht, hu⟩
        rcases List.append_eq_nil.mp h.symm with ⟨rfl, rfl⟩
        exact ⟨ht, hu⟩
  | alt a b iha ihb => simp [Regex.nullable, lang_alt, iha, ihb]
  | star a ih =>
      simp only [Regex.nullable, lang_star, true_iff]
      exact ⟨[], rfl, by simp⟩

theorem deriv_lang (r : Regex) (c : Char) : ∀ s : List Char,
    (r.deriv c).Lang s ↔ r.Lang (c :: s) := by
  induction r with
  | fail => intro s; simp [Regex.deriv, lang_fail]
  | eps => intro s; simp [Regex.deriv, lang_fail, lang_eps]
  | char a =>
      intro s
      by_cases h : a = c
      · subst h; simp [Regex.deriv, lang_eps, lang_char]
      · simp [Regex.deriv, h, lang_fail, lang_char, Ne.symm h]
  | anyChar =>
      intro s
      by_cases h : c = '\n'
      · subst h; simp [Regex.deriv, lang_fail, lang_anyChar]
      · simp only [Regex.deriv, if_neg h, lang_eps, lang_anyChar]
        constructor
        · rintro rfl; exact ⟨c, rfl, h⟩
        · rintro ⟨d, hd, _⟩; exact (List.cons_eq_cons.mp hd).2
  | cls n its =>
      intro s
      by_cases h : classMatch n its c = true
      · simp only [Regex.deriv, if_pos h, lang_eps, lang_cls]
        constructor
        · rintro rfl; exact ⟨c, rfl, h⟩
        · rintro ⟨d, hd, _⟩; exact (List.cons_eq_cons.mp hd).2
      · simp only [Regex.deriv, if_neg h, lang_fail, lang_cls, false_iff]
        rintro ⟨d, hd, hm⟩
        rcases List.cons_eq_cons.mp hd with ⟨rfl, rfl⟩
        exact h hm
  | cat a b iha ihb =>
      intro s
      by_cases h : a.nullable
      · simp only [Regex.deriv, if_pos h, mkAlt_lang, lang_alt, mkCat_lang, lang_cat, iha, ihb]
        constructor
        · rintro (⟨t, u, rfl, ht, hu⟩ | hb)
          · exact ⟨c :: t, u, rfl, ht, hu⟩
          · exact ⟨[], c :: s, rfl, (nullable_iff_lang a).mp h, hb⟩
        · rintro ⟨t, u, hsplit, ht, hu⟩
          cases t with
          | nil => right; rw [List.nil_append] at hsplit; rw [← hsplit] at hu; exact hu
          | cons x t' =>
              left
              rw [List.cons_append] at hsplit
              injection hsplit with h1 h2
              subst h1
              exact ⟨t', u, h2, ht, hu⟩
      · simp only [Regex.deriv, if_neg h, mkCat_lang, lang_cat, iha]
        constructor
        · rintro ⟨t, u, rfl, ht, hu⟩; exact ⟨c :: t, u, rfl, ht, hu⟩
        · rintro ⟨t, u, hsplit, ht, hu⟩
          cases t with
          | nil =>
              exact absurd ((nullable_iff_lang a).mpr ht) (by simpa using h)
          | cons x t' =>
              rw [List.cons_append] at hsplit
              injection hsplit with h1 h2
              subst h1
              exact ⟨t', u, h2, ht, hu⟩
  | alt a b iha ihb =>
      intro s
      simp [Regex.deriv, mkAlt_lang, lang_alt, iha, ihb]
  | star a ih =>
      intro s
      simp only [Regex.deriv, mkCat_lang, lang_cat, ih, lang_star]
      constructor
      · rintro ⟨t, u, rfl, ht, hu⟩
        rcases hu with ⟨parts, rfl, hparts⟩
        refine ⟨(c :: t) :: parts, rfl, ?_⟩
        intro p hp
        rcases List.mem_cons.mp hp with rfl | hp'
        · exact ⟨by simp, ht⟩
        · exact hparts p hp'
      · rintro ⟨parts, hflat, hparts⟩
        cases parts with
        | nil => simp at hflat
        | cons p rest =>
            rcases hparts p (by simp) with ⟨hne, hp⟩
            cases p with
            | nil => exact absurd rfl hne
            | cons x t =>
                rw [List.flatten_cons, List.cons_append] at hflat
                injection hflat with h1 h2
                subst h1
                refine ⟨t, rest.flatten, h2, hp, rest, rfl, ?_⟩
                intro q hq; exact hparts q (by simp [hq])

theorem rmatch_iff_lang (r : Regex) (s : List Char) : r.rmatch s = true ↔ r.Lang s := by
  induction s generalizing r with
  | nil => exact nullable_iff_lang r
  | cons c s ih =>
      have h1 : r.rmatch (c :: s) = (r.deriv c).rmatch s := rfl
      rw [h1, ih, deriv_lang]

/-! ### The regexp syntax accepted by the compiler model

`tokenize` and `parseToks` model `regexp.MustCompile` on the subset of RE2
syntax reachable from route compilation: literals, escapes, character
classes, `.`, groups `(...)` and `(?:...)`, alternation `|`, and the
quantifiers `?`, `*`, `+` with optional lazy markers.  Constructs outside
this subset (repetition counts `{m,n}`, flag groups, anchors in the body,
word-boundary escapes) are rejected, modelling only patterns this program
can build.  A `none` result models a compilation panic. -/

/-- Tokens of the regexp surface syntax. -/
inductive Tok where
  | lit (c : Char)
  | dot
  | tcls (neg : Bool) (items : List ClassItem)
  | lp
  | lpnc
  | rp
  | bar
  | tstar
  | tplus
  | topt
deriving DecidableEq, Repr

/-- Class items of the RE2 escape `\d`. -/
def digitClassItems : List ClassItem := [.range '0' '9']

/-- Class items of the RE2 escape `\w`. -/
def wordClassItems : List ClassItem :=
  [.range '0' '9', .range 'A' 'Z', .single '_', .range 'a' 'z']

/-- Class items of the RE2 escape `\s` (`[\t\n\f\r ]`). -/
def spaceClassItems : List ClassItem :=
  [.single '\t', .single '\n', .single '\x0c', .single '\r', .single ' ']

/-- Control-character escapes valid in RE2. -/
def controlEscape : Char → Option Char
  | 'n' => some '\n'
  | 't' => some '\t'
  | 'r' => some '\r'
  | 'f' => some '\x0c'
  | 'v' => some '\x0b'
  | 'a' => some '\x07'
  | _ => none

/-- Meaning of an escape `\c` in atom position. -/
def escAtomTok (c : Char) : Option Tok :=
  if c = 'd' then some (.tcls false digitClassItems)
  else if c = 'D' then some (.tcls true digitClassItems)
  else if c = 'w' then some (.tcls false wordClassItems)
  else if c = 'W' then some (.tcls true wordClassItems)
  else if c = 's' then some (.tcls false spaceClassItems)
  else if c = 'S' then some (.tcls true spaceClassItems)
  else match controlEscape c with
    | some c0 => some (.lit c0)
    | none => if isWordChar c then none else some (.lit c)

/-- Meaning of an escape `\c` inside a character class. -/
def escClassItems (c : Char) : Option (List ClassItem) :=
  if c = 'd' then some digitClassItems
  else if c = 'w' then some wordClassItems
  else if c = 's' then some spaceClassItems
  else match controlEscape c with
    | some c0 => some [.single c0]
    | none => if isWordChar c then none else some [.single c]

/-- Scan the items of a character class up to the closing `]`.  Returns the
accumulated items and the remainder of the input. -/
def scanClassItems : List Char → List ClassItem → Option (List ClassItem × List Char)
  | [], _ => none
  | ']' :: rest, acc => some (acc.reverse, rest)
  | '\\' :: [], _ => none
  | '\\' :: c :: rest, acc =>
      match escClassItems c with
      | none => none
      | some its => scanClassItems rest (its.reverse ++ acc)
  | a :: '-' :: b :: rest, acc =>
      if b = ']' then scanClassItems ('-' :: b :: rest) (.single a :: acc)
      else if a = '\\' then none
      else scanClassItems rest (.range a b :: acc)
  | a :: rest, acc => scanClassItems rest (.single a :: acc)

/-- Is `c` a quantifier character? -/
def isQuantChar (c : Char) : Bool := c = '*' || c = '+' || c = '?'

/-- Does the list begin with a quantifier character? -/
def headIsQuant : List Char → Bool
  | c :: _ => isQuantChar c
  | [] => false

/-- Strip one lazy marker `?` after a quantifier. -/
def stripLazy : List Char → List Char
  | '?' :: r => r
  | r => r

/-- Result of scanning one token at the head of the input. -/
inductive TokStep0 where
  | done
  | failStep
  | emit (t : Tok) (rest : List Char)
deriving DecidableEq, Repr

/-- Scan the body of a character class after the opening `[`: the negation
flag, the items, and the remainder (a leading `]` right after `[` or `[^` is
a literal item). -/
def scanClassBody : List Char → Option (Bool × (List ClassItem × List Char))
  | '^' :: ']' :: r2 => (scanClassItems r2 [.single ']']).map (fun p => (true, p))
  | '^' :: r1 => (scanClassItems r1 []).map (fun p => (true, p))
  | ']' :: r2 => (scanClassItems r2 [.single ']']).map (fun p => (false, p))
  | r1 => (scanClassItems r1 []).map (fun p => (false, p))

/-- Scan one token at the head of a regexp body. -/
def tokenizeStep : List Char → TokStep0
  | [] => .done
  | '\\' :: [] => .failStep
  | '\\' :: c :: rest =>
      match escAtomTok c with
      | none => .failStep
      | some t => .emit t rest
  | '[' :: rest =>
      match scanClassBody rest with
      | none => .failStep
      | some (neg, (items, rest2)) => .emit (.tcls neg items) rest2
  | '(' :: '?' :: ':' :: rest => .emit .lpnc rest
  | '(' :: '?' :: _ => .failStep
  | '(' :: rest => .emit .lp rest
  | ')' :: rest => .emit .rp rest
  | '|' :: rest => .emit .bar rest
  | '.' :: rest => .emit .dot rest
  | '*' :: rest =>
      if headIsQuant (stripLazy rest) then .failStep else .emit .tstar (stripLazy rest)
  | '+' :: rest =>
      if headIsQuant (stripLazy rest) then .failStep else .emit .tplus (stripLazy rest)
  | '?' :: rest =>
      if headIsQuant (stripLazy rest) then .failStep else .emit .topt (stripLazy rest)
  | '^' :: _ => .failStep
  | '$' :: _ => .failStep
  | '{' :: _ => .failStep
  | '}' :: _ => .failStep
  | c :: rest => .emit (.lit c) rest

/-- Tokenizer loop, with explicit fuel (one unit per token; `s.length` is
always sufficient since every token consumes at least one character). -/
def tokenizeAux : Nat → List Char → Option (List Tok)
  | _, [] => some []
  | 0, _ => none
  | fuel + 1, c :: rest =>
      match tokenizeStep (c :: rest) with
      | .done => some []
      | .failStep => none
      | .emit t rest' => (tokenizeAux fuel rest').map (t :: ·)

/-- Tokenize a regexp body. -/
def tokenize (s : List Char) : Option (List Tok) := tokenizeAux s.length s

/-- Parser state: the current (reversed) factor sequence, the (reversed)
completed alternatives at this nesting level, and the stack of enclosing
levels. -/
structure PState where
  cur : List Regex
  alts : List Regex
  stk : List (List Regex × List Regex)
deriving Repr

/-- Concatenation of a list of regexes. -/
def catList : List Regex → Regex
  | [] => .eps
  | [r] => r
  | r :: rs => .cat r (catList rs)

/-- Alternation of a list of regexes. -/
def altList : List Regex → Regex
  | [] => .fail
  | [r] => r
  | r :: rs => .alt r (altList rs)

/-- Close the current nesting level into a single regex. -/
def closeLevel (st : PState) : Regex :=
  altList (st.alts.reverse ++ [catList st.cur.reverse])

/-- One step of the token parser. -/
def stepTok (st : PState) (t : Tok) : Option PState :=
  match t with
  | .lit c => some { st with cur := .char c :: st.cur }
  | .dot => some { st with cur := .anyChar :: st.cur }
  | .tcls n its => some { st with cur := .cls n its :: st.cur }
  | .lp => some { cur := [], alts := [], stk := (st.cur, st.alts) :: st.stk }
  | .lpnc => some { cur := [], alts := [], stk := (st.cur, st.alts) :: st.stk }
  | .bar => some { st with cur := [], alts := catList st.cur.reverse :: st.alts }
  | .rp =>
      match st.stk with
      | [] => none
      | (pc, pa) :: s => some { cur := closeLevel st :: pc, alts := pa, stk := s }
  | .topt =>
      match st.cur with
      | [] => none
      | x :: xs => some { st with cur := .alt x .eps :: xs }
  | .tstar =>
      match st.cur with
      | [] => none
      | x :: xs => some { st with cur := .star x :: xs }
  | .tplus =>
      match st.cur with
      | [] => none
      | x :: xs => some { st with cur := .cat x (.star x) :: xs }

/-- Parse a token list into a regex. -/
def parseToks (ts : List Tok) : Option Regex :=
  match ts.foldlM stepTok { cur := [], alts := [], stk := [] } with
  | none => none
  | some st => if st.stk.isEmpty then some (closeLevel st) else none

/-- Go anchors the compiled pattern: `fmt.Sprintf("^%v$", compiled)`. -/
def anchorPattern (s : List Char) : List Char := '^' :: s ++ ['$']

/-- Models `regexp.MustCompile` on the anchored pattern together with the
anchoring semantics of `MatchString`: strip `^`/`$` and compile the body to a
whole-string matcher.  `none` models a compilation panic. -/
def compileAnchored (s : List Char) : Option Regex :=
  match s with
  | '^' :: rest =>
      if rest.getLast? = some '$' then
        match tokenize rest.dropLast with
        | none => none
        | some ts => parseToks ts
      else none
  | _ => none

/-! ### The route compiler (`NewRoute`) -/

/-- One parsed parameter occurrence, the Go struct `fragmentedPathParameter`
produced by `generateFragmentedPathParameter` from a submatch of
`splitRoutePathParams = (\/)?(\.)?:(\w+)(?:(\(.*?\)))?(\?)?`. -/
structure fragmentedPathParameter where
  definition : List Char
  slash : List Char
  format : List Char
  name : List Char
  capture : List Char
  optional : List Char
deriving DecidableEq, Repr

/-- Scan the body of a custom capture `\(.*?\)` lazily up to the first `)`. -/
def scanCaptureBody : List Char → Option (List Char × List Char)
  | [] => none
  | c :: rest =>
      if c = ')' then some ([')'], rest)
      else if c = '\n' then none
      else
        match scanCaptureBody rest with
        | none => none
        | some (body, r) => some (c :: body, r)

/-- Scan the optional custom capture group `(?:(\(.*?\)))?` at the head of
the input: the matched text (empty when the group does not participate) and
the remainder. -/
def scanCapture (s : List Char) : List Char × List Char :=
  match s with
  | '(' :: r =>
      match scanCaptureBody r with
      | some (body, r2) => ('(' :: body, r2)
      | none => ([], s)
  | _ => ([], s)

/-- Scan the optional trailing `(\?)?` marker. -/
def scanOpt (s : List Char) : List Char × List Char :=
  match s with
  | '?' :: r => (['?'], r)
  | _ => ([], s)

/-- Match the part of `splitRoutePathParams` after the optional `(\/)?(\.)?`:
`:(\w+)(?:(\(.*?\)))?(\?)?`, with the already-consumed slash/format groups
supplied.  Returns the fragment and the rest of the input. -/
def matchParamCore (sl fm : List Char) : List Char → Option (fragmentedPathParameter × List Char)
  | ':' :: rest =>
      let nm := rest.takeWhile isWordChar
      if nm.isEmpty then none
      else
        let capRest := scanCapture (rest.dropWhile isWordChar)
        let optRest := scanOpt capRest.2
        some ({ definition := sl ++ fm ++ [':'] ++ nm ++ capRest.1 ++ optRest.1,
                slash := sl, format := fm, name := nm,
                capture := capRest.1, optional := optRest.1 }, optRest.2)
  | _ => none

/-- Try to match `splitRoutePathParams` at the head of the input. -/
def matchParamAt : List Char → Option (fragmentedPathParameter × List Char)
  | '/' :: '.' :: rest => matchParamCore ['/'] ['.'] rest
  | '/' :: rest => matchParamCore ['/'] [] rest
  | '.' :: rest => matchParamCore [] ['.'] rest
  | s => matchParamCore [] [] s

/-- Leftmost-first scan of all parameter fragments, with fuel (one unit per
scanning step; `s.length` is always sufficient since every step consumes at
least one character). -/
def splitRoutePathParamsAux : Nat → List Char → List fragmentedPathParameter
  | _, [] => []
  | 0, _ => []
  | fuel + 1, c :: rest =>
      match matchParamAt (c :: rest) with
      | some (f, rest') => f :: splitRoutePathParamsAux fuel rest'
      | none => splitRoutePathParamsAux fuel rest

/-- Models `splitRoutePathParams.FindAllStringSubmatch(path, -1)` followed by
`generateFragmentedPathParameter` on each submatch. -/
def splitRoutePathParams (s : List Char) : List fragmentedPathParameter :=
  splitRoutePathParamsAux s.length s

/-- Models `replaceCaptureParams.ReplaceAllString(path, "(?:/")`, rewriting
every occurrence of `/(` into `(?:/`. -/
def replaceCaptureParams : List Char → List Char
  | '/' :: '(' :: rest => '(' :: '?' :: ':' :: '/' :: replaceCaptureParams rest
  | c :: rest => c :: replaceCaptureParams rest
  | [] => []

/-- Models `strings.Replace(s, pat, rep, -1)` for nonempty `pat`: replace
every non-overlapping occurrence, left to right.  Fuel of `s.length`
suffices since every step consumes at least one character. -/
def goReplaceAllAux : Nat → List Char → List Char → List Char → List Char
  | _, [], _, _ => []
  | 0, s, _, _ => s
  | fuel + 1, c :: rest, pat, rep =>
      if !pat.isEmpty && pat.isPrefixOf (c :: rest) then
        rep ++ goReplaceAllAux fuel ((c :: rest).drop pat.length) pat rep
      else
        c :: goReplaceAllAux fuel rest pat rep

/-- Entry point of the `strings.Replace` model. -/
def goReplaceAll (s pat rep : List Char) : List Char := goReplaceAllAux s.length s pat rep

/-- Models `replaceSlashes.ReplaceAllString(compiled, "\\$1")`: escape every
`/` and `.` (a per-character rewrite). -/
def replaceSlashes (s : List Char) : List Char :=
  s.flatMap (fun c => if c = '/' ∨ c = '.' then ['\\', c] else [c])

/-- Models `replaceWildcards.ReplaceAllString(compiled, "(.*)")`: expand every
`*` into `(.*)` (a per-character rewrite). -/
def replaceWildcards (s : List Char) : List Char :=
  s.flatMap (fun c => if c = '*' then "(.*)".data else [c])

/-- The `formatted` string the `NewRoute` loop builds for one fragment. -/
def formatFragment (f : fragmentedPathParameter) : List Char :=
  let s1 := if f.optional.length = 0 then f.slash else []
  let s2 := s1 ++ ['(', '?', ':']
  let s3 := if 0 < f.optional.length then s2 ++ f.slash else s2
  let s4 := if 0 < f.format.length then s3 ++ f.format else s3
  let s5 :=
    if 0 < f.capture.length then s4 ++ f.capture
    else if 0 < f.format.length then s4 ++ "([^/.]+?)".data
    else s4 ++ "([^/]+?)".data
  let s6 := s5 ++ [')']
  if 0 < f.optional.length then s6 ++ f.optional else s6

/-- The compiled pattern body built by `NewRoute` before anchoring: rewrite
`/(`, append `/?` when unrestricted, substitute every fragment, escape `/`
and `.`, expand `*`. -/
def compiledPattern (path : List Char) (strict : Bool) : List Char :=
  let compiled0 := replaceCaptureParams path
  let parameters := splitRoutePathParams path
  let compiled1 := if !strict then compiled0 ++ ['/', '?'] else compiled0
  let compiled2 :=
    parameters.foldl (fun comp f => goReplaceAll comp f.definition (formatFragment f)) compiled1
  replaceWildcards (replaceSlashes compiled2)

/-- A compiled route: the original path, the parameter names in order of
appearance, and the compiled matcher. -/
structure Route where
  path : List Char
  keys : List (List Char)
  matcher : Regex
deriving DecidableEq, Repr

/-- Models `NewRoute(path, strict)`.  The `regexp.MustCompile` panic on an
invalid synthesized pattern is modelled by `none`. -/
def NewRoute (path : String) (strict : Bool) : Option Route :=
  match compileAnchored (anchorPattern (compiledPattern path.data strict)) with
  | none => none
  | some r =>
      some { path := path.data
             keys := (splitRoutePathParams path.data).map (·.name)
             matcher := r }

/-- Models `route.matcher.MatchString(path)`. -/
def Route.matchString (r : Route) (s : String) : Bool := r.matcher.rmatch s.data

/-! ### The Router

Handlers are side-effecting `http.Handler` values whose effects the Router
never observes; they are modelled by opaque numeric identifiers.  Middleware
returns the boolean "handled" flag the Router branches on, so it is modelled
as a function from the request to that flag.  `ServeHTTP` is modelled as the
trace of invocations it performs.  The Go dispatcher is `map[string]map[*Route]http.Handler`;
buckets are modelled as association lists in insertion order (the spec notes
Go's map iteration order is unspecified; no claim proved here depends on
bucket iteration order).  The mutex only serializes accesses and has no
sequential meaning, so it is not modelled. -/

/-- An HTTP request, restricted to the fields dispatch reads. -/
structure Request where
  method : String
  path : String
deriving DecidableEq, Repr

/-- Middleware: observes the request, returns the "handled" flag. -/
def Middleware : Type := Request → Bool

/-- The supported HTTP methods, in declaration order. -/
def httpMethods : List String :=
  ["GET", "PUT", "POST", "DELETE", "OPTIONS", "HEAD", "TRACE", "CONNECT", "PATCH"]

/-- The dispatcher table: method string to bucket of (route, handler id). -/
def Dispatcher0 : Type := List (String × List (Route × Nat))

/-- Models `NewDispatcher`: one empty bucket per supported method. -/
def NewDispatcher : Dispatcher0 := httpMethods.map (fun m => (m, []))

/-- The Router state. -/
structure Router where
  dispatcher : Dispatcher0
  middleware : List Middleware
  notFoundHandler : Nat
  strict : Bool

/-- Identifier of `http.NotFoundHandler()`, the default fallback. -/
def defaultNotFoundHandler : Nat := 0

/-- Models `NewRouter`. -/
def NewRouter : Router :=
  { dispatcher := NewDispatcher
    middleware := []
    notFoundHandler := defaultNotFoundHandler
    strict := false }

/-- Replace the bucket of method `m` (used for the Go map store). -/
def updateBucket (d : Dispatcher0) (m : String) (b : List (Route × Nat)) : Dispatcher0 :=
  d.map (fun p => if p.1 = m then (p.1, b) else p)

/-- Models `AddHandler`: if the method has no bucket the call is a silent
no-op; otherwise the path is compiled with the router's current strict flag
and inserted.  `none` propagates the `NewRoute` compilation panic. -/
def Router.AddHandler (r : Router) (method path : String) (handler : Nat) : Option Router :=
  match r.dispatcher.lookup method with
  | none => some r
  | some routes =>
      match NewRoute path r.strict with
      | none => none
      | some route =>
          some { r with dispatcher := updateBucket r.dispatcher method (routes ++ [(route, handler)]) }

/-- Models `Get`. -/
def Router.Get (r : Router) (path : String) (handler : Nat) : Option Router :=
  r.AddHandler "GET" path handler

/-- Models `Put`. -/
def Router.Put (r : Router) (path : String) (handler : Nat) : Option Router :=
  r.AddHandler "PUT" path handler

/-- Models `Post`. -/
def Router.Post (r : Router) (path : String) (handler : Nat) : Option Router :=
  r.AddHandler "POST" path handler

/-- Models `Delete`. -/
def Router.Delete (r : Router) (path : String) (handler : Nat) : Option Router :=
  r.AddHandler "DELETE" path handler

/-- Models `Match`: register under every supported method. -/
def Router.Match (r : Router) (path : String) (handler : Nat) : Option Router :=
  httpMethods.foldlM (fun acc m => acc.AddHandler m path handler) r

/-- Models `RegisterMiddleware`: append to the middleware sequence. -/
def Router.RegisterMiddleware (r : Router) (m : Middleware) : Router :=
  { r with middleware := r.middleware ++ [m] }

/-- Models `NotFound`: replace the fallback handler. -/
def Router.NotFound (r : Router) (handler : Nat) : Router :=
  { r with notFoundHandler := handler }

/-- Models `RestrictRouteMatching`: set the strict flag. -/
def Router.RestrictRouteMatching (r : Router) : Router := { r with strict := true }

/-- Models `UnrestrictRouteMatching`: clear the strict flag. -/
def Router.UnrestrictRouteMatching (r : Router) : Router := { r with strict := false }

/-- Models `strings.ToUpper` on method names (ASCII). -/
def goToUpper (s : String) : String := String.mk (s.data.map Char.toUpper)

/-- Models `findMatchingRouteAndHandler`: uppercase the request method, look
up its bucket, return the first route whose matcher accepts the path. -/
def Router.findMatchingRouteAndHandler (r : Router) (req : Request) : Option (Route × Nat) :=
  match r.dispatcher.lookup (goToUpper req.method) with
  | none => none
  | some routes => routes.find? (fun p => p.1.matchString req.path)

/-- One observable invocation performed by `ServeHTTP`. -/
inductive Event where
  | middlewareRan (index : Nat)
  | handlerRan (handler : Nat)
  | notFoundRan (handler : Nat)
deriving DecidableEq, Repr

/-- Run the middleware chain in order starting at index `i`: the trace of
middleware invoked, and whether one of them handled the request. -/
def runMiddleware : Nat → List Middleware → Request → List Event × Bool
  | _, [], _ => ([], false)
  | i, m :: rest, req =>
      if m req then ([.middlewareRan i], true)
      else
        let p := runMiddleware (i + 1) rest req
        (.middlewareRan i :: p.1, p.2)

/-- Models `ServeHTTP` as the trace of invocations it performs: middleware in
registration order, stopping at the first that handles the request;
otherwise the matched route's handler, or the fallback handler. -/
def Router.ServeHTTP (r : Router) (req : Request) : List Event :=
  let p := runMiddleware 0 r.middleware req
  if p.2 then p.1
  else
    match r.findMatchingRouteAndHandler req with
    | some (_, handler) => p.1 ++ [.handlerRan handler]
    | none => p.1 ++ [.notFoundRan r.notFoundHandler]

/-! ### Simple route templates

The spec's path-template mini-grammar, restricted to its simple core:
literal segments and named parameters with default captures.  `Seg` is the
abstract syntax of one `/`-led segment; `renderSeg` prints it back into the
concrete template text that `NewRoute` consumes.  The definitions below
describe the expected intermediate artifacts of each compilation stage for
such templates; the theorems prove the compiler against them. -/

/-- One segment of a simple route template: a literal, or a `:name`
parameter (optionally marked `?`). -/
inductive Seg where
  | lit (w : List Char)
  | param (nm : List Char) (opt : Bool)
deriving DecidableEq, Repr

/-- The template text of one segment. -/
def renderSeg : Seg → List Char
  | .lit w => '/' :: w
  | .param nm opt => '/' :: ':' :: (nm ++ if opt then ['?'] else [])

/-- The template text of a segment list. -/
def renderSegs (segs : List Seg) : List Char := (segs.map renderSeg).flatten

/-- Well-formedness of one word (nonempty, `\w` characters only). -/
def wordishB (w : List Char) : Bool := !w.isEmpty && w.all isWordChar

/-- Well-formedness of one segment. -/
def segWFB : Seg → Bool
  | .lit w => wordishB w
  | .param nm _ => wordishB nm

/-- Is the segment an optional parameter? -/
def segIsOpt : Seg → Bool
  | .param _ o => o
  | .lit _ => false

/-- The parameter names of a template, in order. -/
def paramNames : List Seg → List (List Char)
  | [] => []
  | .lit _ :: rest => paramNames rest
  | .param nm _ :: rest => nm :: paramNames rest

/-- Neither word is a prefix of the other. -/
def incompB (a b : List Char) : Bool := !(a.isPrefixOf b) && !(b.isPrefixOf a)

/-- Pairwise prefix-incomparability of the parameter names (this also rules
out duplicate names). -/
def namesOKB : List (List Char) → Bool
  | [] => true
  | n :: rest => rest.all (incompB n) && namesOKB rest

/-- The parameter fragment the scanner extracts for one parameter segment. -/
def fragOfParam (nm : List Char) (opt : Bool) : fragmentedPathParameter :=
  { definition := '/' :: ':' :: (nm ++ if opt then ['?'] else []),
    slash := ['/'], format := [], name := nm,
    capture := [], optional := if opt then ['?'] else [] }

/-- The fragments of a simple template, in order. -/
def fragsOfSegs : List Seg → List fragmentedPathParameter
  | [] => []
  | .lit _ :: rest => fragsOfSegs rest
  | .param nm opt :: rest => fragOfParam nm opt :: fragsOfSegs rest

/-- The text of one segment after the fragment-substitution pass. -/
def substSeg : Seg → List Char
  | .lit w => '/' :: w
  | .param _ false => "/(?:([^/]+?))".data
  | .param _ true => "(?:/([^/]+?))?".data

/-- The text of one segment after the `/`/`.`-escaping pass. -/
def escSeg : Seg → List Char
  | .lit w => '\\' :: '/' :: w
  | .param _ false => "\\/(?:([^\\/]+?))".data
  | .param _ true => "(?:\\/([^\\/]+?))?".data

/-- The token sequence of one compiled segment. -/
def segToks : Seg → List Tok
  | .lit w => .lit '/' :: w.map .lit
  | .param _ false => [.lit '/', .lpnc, .lp, .tcls true [.single '/'], .tplus, .rp, .rp]
  | .param _ true => [.lpnc, .lit '/', .lp, .tcls true [.single '/'], .tplus, .rp, .rp, .topt]

/-- The character class `[^/]`. -/
def clsNoSlash : Regex := .cls true [.single '/']

/-- The compiled sub-expression `[^/]+?` (one or more non-separator
characters; laziness is irrelevant to acceptance). -/
def plusNoSlash : Regex := .cat clsNoSlash (.star clsNoSlash)

/-- The compiled sub-expression `(?:/([^/]+?))?`. -/
def optGroup : Regex := .alt (.cat (.char '/') plusNoSlash) .eps

/-- The regex factors contributed by one compiled segment. -/
def segFactors : Seg → List Regex
  | .lit w => .char '/' :: w.map .char
  | .param _ false => [.char '/', plusNoSlash]
  | .param _ true => [optGroup]

/-- The compiled matcher body of a simple template: its segment factors in
order, followed by the `\/?` allowance when unrestricted. -/
def segsRegex (segs : List Seg) (strict : Bool) : Regex :=
  catList ((segs.map segFactors).flatten ++ if strict then [] else [.alt (.char '/') .eps])

/-- The acceptance predicate of a segment list: the path decomposes into one
`/`-led part per segment (a literal matched verbatim; a parameter value
nonempty and slash-free; an optional parameter possibly absent). -/
def SegsLang (segs : List Seg) (s : List Char) : Prop :=
  (catList (segs.map segFactors).flatten).Lang s

/-- No occurrence of the adjacent character pair `a b` in `s`. -/
def noPair (a b : Char) : List Char → Bool
  | x :: y :: rest => !(x == a && y == b) && noPair a b (y :: rest)
  | _ => true

/-! ### Dispatch-loop lemmas -/

theorem range_map_shift (n i : Nat) :
    (List.range (n + 1)).map (fun j => Event.middlewareRan (i + j)) =
      Event.middlewareRan i :: (List.range n).map (fun j => Event.middlewareRan (i + 1 + j)) := by
  rw [List.range_succ_eq_map, List.map_cons, List.map_map]
  have hfun : (fun j => Event.middlewareRan (i + j)) ∘ (· + 1) =
      (fun j => Event.middlewareRan (i + 1 + j)) := by
    funext j
    simp only [Function.comp_apply]
    congr 1
    omega
  rw [hfun]
  simp

theorem runMiddleware_all_false (mws : List Middleware) (req : Request) :
    ∀ i, (∀ m ∈ mws, m req = false) →
      runMiddleware i mws req =
        ((List.range mws.length).map (fun j => Event.middlewareRan (i + j)), false) := by
  induction mws with
  | nil => intro i _; simp [runMiddleware]
  | cons m rest ih =>
      intro i h
      have hm : m req = false := h m (by simp)
      have hrest : ∀ m0 ∈ rest, m0 req = false := fun m0 hm0 => h m0 (by simp [hm0])
      simp [runMiddleware, hm, ih (i + 1) hrest, List.length_cons, range_map_shift]

theorem runMiddleware_handled (mws : List Middleware) (req : Request) :
    ∀ i k m, mws[k]? = some m → m req = true →
      (∀ j, j < k → ∀ mj, mws[j]? = some mj → mj req = false) →
      runMiddleware i mws req =
        ((List.range (k + 1)).map (fun j => Event.middlewareRan (i + j)), true) := by
  induction mws with
  | nil => intro i k m hk; simp at hk
  | cons m0 rest ih =>
      intro i k m hk hm hprev
      cases k with
      | zero =>
          rw [List.getElem?_cons_zero] at hk
          have hm0 : m0 req = true := by
            cases hk; exact hm
          have h1 : List.range 1 = [0] := rfl
          simp [runMiddleware, hm0, h1]
      | succ k' =>
          have hm0 : m0 req = false := hprev 0 (Nat.succ_pos k') m0 (by simp)
          rw [List.getElem?_cons_succ] at hk
          have hprev' : ∀ j, j < k' → ∀ mj, rest[j]? = some mj → mj req = false := by
            intro j hj mj hmj
            exact hprev (j + 1) (Nat.succ_lt_succ hj) mj (by simpa using hmj)
          simp [runMiddleware, hm0, ih (i + 1) k' m hk hm hprev', range_map_shift]

theorem runMiddleware_events (mws : List Middleware) (req : Request) :
    ∀ i, ∀ e ∈ (runMiddleware i mws req).1, ∃ j, e = Event.middlewareRan j := by
  induction mws with
  | nil => intro i e he; simp [runMiddleware] at he
  | cons m rest ih =>
      intro i e he
      by_cases hm : m req = true
      · simp [runMiddleware, hm] at he
        exact ⟨i, he⟩
      · simp only [runMiddleware, hm, Bool.false_eq_true, if_false, List.mem_cons] at he
        rcases he with rfl | he
        · exact ⟨i, rfl⟩
        · exact ih (i + 1) e he

theorem lookup_eq_none_of_not_mem_keys {β : Type} (d : List (String × β)) (a : String)
    (h : a ∉ d.map Prod.fst) : d.lookup a = none := by
  induction d with
  | nil => rfl
  | cons p rest ih =>
      cases p with
      | mk k v =>
          rw [List.map_cons, List.mem_cons] at h
          push_neg at h
          have hne : (a == k) = false := beq_eq_false_iff_ne.mpr h.1
          simp only [List.lookup, hne]
          exact ih h.2

/-! ### Claim theorems -/

/-- C2: the matcher compiled from template `/test/:required` with
`strict = false` accepts `/test/one/` — exactly one trailing slash is
tolerated at the end of the whole path (`/test/one` is accepted,
`/test/one//` is rejected) — while the `strict = true` compilation of the
same template rejects `/test/one/` (and still accepts `/test/one`). -/
theorem claim_c2_trailing_slash :
    ((NewRoute "/test/:required" false).map (fun r => r.matchString "/test/one/") = some true)
    ∧ ((NewRoute "/test/:required" false).map (fun r => r.matchString "/test/one") = some true)
    ∧ ((NewRoute "/test/:required" false).map (fun r => r.matchString "/test/one//") = some false)
    ∧ ((NewRoute "/test/:required" true).map (fun r => r.matchString "/test/one/") = some false)
    ∧ ((NewRoute "/test/:required" true).map (fun r => r.matchString "/test/one") = some true) :=
  ⟨rfl, rfl, rfl, rfl, rfl⟩

/-- C9: compilation of the synthesized pattern happens at construction time —
`NewRoute` returns a route exactly when `regexp.MustCompile` succeeds on the
anchored compiled pattern, and the stored matcher is that compilation result
(dispatch only evaluates the stored matcher; it never re-parses) — and a
template whose custom capture makes the pattern invalid (here `:id([a)`,
producing an unterminated character class) fails fatally at construction. -/
theorem claim_c9_compile_time_failure :
    (∀ path strict, (NewRoute path strict).map Route.matcher =
        compileAnchored (anchorPattern (compiledPattern path.data strict)))
    ∧ NewRoute "/test/:id([a)" true = none := by
  refine ⟨fun path strict => ?_, rfl⟩
  unfold NewRoute
  cases compileAnchored (anchorPattern (compiledPattern path.data strict)) <;> rfl

/-- C7: `AddHandler` on a method string that is not a key of the dispatcher
table (for a router whose table has exactly the nine supported uppercase
methods as keys, any unsupported method such as `"get"` or `"FOO"`) returns
the router unchanged: no route is inserted and no error is reported. -/
theorem claim_c7_unsupported_method_noop (r : Router) (method path : String) (handler : Nat)
    (hkeys : r.dispatcher.map Prod.fst = httpMethods) (hm : method ∉ httpMethods) :
    r.AddHandler method path handler = some r := by
  have hnone : r.dispatcher.lookup method = none := by
    apply lookup_eq_none_of_not_mem_keys
    rw [hkeys]
    exact hm
  unfold Router.AddHandler
  rw [hnone]

/-- Witness for C7 at a concrete router and the lowercase method `"get"`. -/
theorem claim_c7_witness :
    NewRouter.dispatcher.map Prod.fst = httpMethods ∧ "get" ∉ httpMethods ∧
      NewRouter.AddHandler "get" "/a/:b" 7 = some NewRouter :=
  ⟨rfl, by decide, claim_c7_unsupported_method_noop NewRouter "get" "/a/:b" 7 rfl (by decide)⟩

/-- C8: `RestrictRouteMatching` / `UnrestrictRouteMatching` change only the
strict flag — route table, middleware list and fallback handler are
untouched, and route matching over the already-registered table is
unchanged (routes are not recompiled) — while `AddHandler` compiles the new
route with the router's strict flag as it stands at the moment of the call. -/
theorem claim_c8_strict_snapshot (r : Router) :
    (r.RestrictRouteMatching.dispatcher = r.dispatcher
      ∧ r.RestrictRouteMatching.middleware = r.middleware
      ∧ r.RestrictRouteMatching.notFoundHandler = r.notFoundHandler
      ∧ r.RestrictRouteMatching.strict = true)
    ∧ (r.UnrestrictRouteMatching.dispatcher = r.dispatcher
      ∧ r.UnrestrictRouteMatching.middleware = r.middleware
      ∧ r.UnrestrictRouteMatching.notFoundHandler = r.notFoundHandler
      ∧ r.UnrestrictRouteMatching.strict = false)
    ∧ (∀ req, r.RestrictRouteMatching.findMatchingRouteAndHandler req =
        r.findMatchingRouteAndHandler req)
    ∧ (∀ req, r.UnrestrictRouteMatching.findMatchingRouteAndHandler req =
        r.findMatchingRouteAndHandler req)
    ∧ (∀ method path handler,
        r.AddHandler method path handler =
          match r.dispatcher.lookup method with
          | none => some r
          | some routes =>
              (NewRoute path r.strict).map (fun route =>
                { r with dispatcher :=
                    updateBucket r.dispatcher method (routes ++ [(route, handler)]) })) := by
  refine ⟨⟨rfl, rfl, rfl, rfl⟩, ⟨rfl, rfl, rfl, rfl⟩, fun _ => rfl, fun _ => rfl, ?_⟩
  intro method path handler
  unfold Router.AddHandler
  cases r.dispatcher.lookup method with
  | none => rfl
  | some routes => cases NewRoute path r.strict <;> rfl

/-- C3: during `ServeHTTP` the registered middleware run in registration
order: if the middleware at position `k` returns true while all before it
return false, the dispatch trace is exactly middleware `0..k` — no later
middleware, no route handler, and no fallback handler runs; if every
middleware returns false, dispatch proceeds to route matching after running
the whole chain in order (matched route handler, else fallback). -/
theorem claim_c3_middleware_chain (r : Router) (req : Request) :
    (∀ k m, r.middleware[k]? = some m → m req = true →
        (∀ j, j < k → ∀ mj, r.middleware[j]? = some mj → mj req = false) →
        r.ServeHTTP req = (List.range (k + 1)).map Event.middlewareRan)
    ∧ ((∀ m ∈ r.middleware, m req = false) →
        r.ServeHTTP req =
          (List.range r.middleware.length).map Event.middlewareRan ++
            (match r.findMatchingRouteAndHandler req with
             | some p => [Event.handlerRan p.2]
             | none => [Event.notFoundRan r.notFoundHandler])) := by
  have hfun : (fun j => Event.middlewareRan (0 + j)) = Event.middlewareRan := by
    funext j; rw [Nat.zero_add]
  constructor
  · intro k m hk hm hprev
    have hrw := runMiddleware_handled r.middleware req 0 k m hk hm hprev
    simp [Router.ServeHTTP, hrw, hfun]
  · intro hall
    have hrw := runMiddleware_all_false r.middleware req 0 hall
    cases hfind : r.findMatchingRouteAndHandler req with
    | none => simp [Router.ServeHTTP, hrw, hfun, hfind]
    | some p => simp [Router.ServeHTTP, hrw, hfun, hfind]

/-- Witness for C3: a concrete router whose middleware chain is
false-true-true stops exactly after the second middleware. -/
theorem claim_c3_witness :
    (((NewRouter.RegisterMiddleware (fun _ => false)).RegisterMiddleware
        (fun _ => true)).RegisterMiddleware (fun _ => true)).ServeHTTP
      { method := "GET", path := "/x" } =
      [Event.middlewareRan 0, Event.middlewareRan 1] := by
  have h := (claim_c3_middleware_chain
      (((NewRouter.RegisterMiddleware (fun _ => false)).RegisterMiddleware
        (fun _ => true)).RegisterMiddleware (fun _ => true))
      { method := "GET", path := "/x" }).1 1 (fun _ => true) rfl rfl ?_
  · rw [h]; rfl
  · intro j hj mj hmj
    have hj0 : j = 0 := by omega
    subst hj0
    have heq : some (fun _ : Request => false) = some mj := hmj
    rw [← Option.some.inj heq]

/-- C4: if no middleware handles the request and either the uppercased
request method has no bucket or no route matcher in its bucket accepts the
request path, `ServeHTTP`'s trace is the full middleware chain followed by
exactly one fallback invocation; moreover, for any request whatsoever, a
route handler and the fallback handler never both appear in one trace. -/
theorem claim_c4_fallback_once (r : Router) (req : Request) :
    ((∀ m ∈ r.middleware, m req = false) →
      (r.dispatcher.lookup (goToUpper req.method) = none ∨
        (∀ bucket, r.dispatcher.lookup (goToUpper req.method) = some bucket →
          ∀ p ∈ bucket, p.1.matchString req.path = false)) →
      r.ServeHTTP req =
        (List.range r.middleware.length).map Event.middlewareRan ++
          [Event.notFoundRan r.notFoundHandler])
    ∧ (∀ h1 h2, ¬ (Event.handlerRan h1 ∈ r.ServeHTTP req ∧
        Event.notFoundRan h2 ∈ r.ServeHTTP req)) := by
  have hfun : (fun j => Event.middlewareRan (0 + j)) = Event.middlewareRan := by
    funext j; rw [Nat.zero_add]
  constructor
  · intro hall hno
    have hfind : r.findMatchingRouteAndHandler req = none := by
      unfold Router.findMatchingRouteAndHandler
      cases hl : r.dispatcher.lookup (goToUpper req.method) with
      | none => rfl
      | some bucket =>
          rcases hno with hnone | hforall
          · rw [hl] at hnone; cases hnone
          · simp only
            apply List.find?_eq_none.mpr
            intro p hp
            simp [hforall bucket hl p hp]
    have hrw := runMiddleware_all_false r.middleware req 0 hall
    simp [Router.ServeHTTP, hrw, hfun, hfind]
  · intro h1 h2 hpair
    obtain ⟨hh, hn⟩ := hpair
    simp only [Router.ServeHTTP] at hh hn
    by_cases hb : (runMiddleware 0 r.middleware req).2 = true
    · rw [if_pos hb] at hh
      rcases runMiddleware_events r.middleware req 0 _ hh with ⟨j, hj⟩
      cases hj
    · rw [if_neg hb] at hh hn
      cases hfind : r.findMatchingRouteAndHandler req with
      | none =>
          rw [hfind] at hh
          rcases List.mem_append.mp hh with hmem | hmem
          · rcases runMiddleware_events r.middleware req 0 _ hmem with ⟨j, hj⟩
            cases hj
          · simp at hmem
      | some q =>
          rw [hfind] at hn
          rcases List.mem_append.mp hn with hmem | hmem
          · rcases runMiddleware_events r.middleware req 0 _ hmem with ⟨j, hj⟩
            cases hj
          · simp at hmem

/-- Witness for C4: a concrete router with one non-handling middleware, an
empty GET bucket, and a registered fallback handler serves exactly one
fallback invocation after the middleware chain. -/
theorem claim_c4_witness :
    ((NewRouter.NotFound 9).RegisterMiddleware (fun _ => false)).ServeHTTP
      { method := "GET", path := "/nothing" } =
      [Event.middlewareRan 0, Event.notFoundRan 9] := by
  have h := (claim_c4_fallback_once
      ((NewRouter.NotFound 9).RegisterMiddleware (fun _ => false))
      { method := "GET", path := "/nothing" }).1 ?_ ?_
  · rw [h]; rfl
  · intro m hm
    have heq : m = (fun _ : Request => false) := List.mem_singleton.mp hm
    rw [heq]
  · right
    intro bucket hb p hp
    have hred : List.lookup (goToUpper ({ method := "GET", path := "/nothing" } : Request).method)
        ((NewRouter.NotFound 9).RegisterMiddleware (fun _ => false)).dispatcher =
        some ([] : List (Route × Nat)) := rfl
    rw [hred] at hb
    injection hb with hbb
    subst hbb
    simp at hp

/-- Counterexample to C5: for the template `/x/:id(a.b)` the user's
sub-pattern `a.b` (original regexp semantics, matched against the whole
segment) accepts the segment `axb`, yet the compiled route rejects
`/x/axb`: the escaping pass that runs after substitution turns the `.`
inside the custom capture into a literal dot (the route accepts `/x/a.b`),
so the compiled matcher does not use the sub-pattern with its original
semantics. -/
theorem claim_c5_counterexample :
    (compileAnchored (anchorPattern "(a.b)".data)).map (fun r => r.rmatch "axb".data) = some true
    ∧ (NewRoute "/x/:id(a.b)" true).map (fun r => r.matchString "/x/axb") = some false
    ∧ (NewRoute "/x/:id(a.b)" true).map (fun r => r.matchString "/x/a.b") = some true :=
  ⟨rfl, rfl, rfl⟩

/-- C5 amended: when a fragment supplies a custom capture sub-pattern, the
substitution step emits that capture verbatim inside the synthesized group —
also when a `format` dot marker is present, in which case the default
exclusion classes are not used — but the later passes escape `/` and `.`
and expand `*` inside the whole compiled string, custom captures included,
so the original sub-pattern semantics are preserved only for captures free
of those characters. -/
theorem claim_c5_amended_capture_verbatim (f : fragmentedPathParameter)
    (h : 0 < f.capture.length) :
    formatFragment f =
      (if f.optional.length = 0 then f.slash else []) ++ ['(', '?', ':'] ++
        (if 0 < f.optional.length then f.slash else []) ++ f.format ++ f.capture ++ [')'] ++
        f.optional := by
  unfold formatFragment
  rcases Nat.eq_zero_or_pos f.optional.length with h0 | h0
  · have hopt : f.optional = [] := List.length_eq_zero.mp h0
    rcases Nat.eq_zero_or_pos f.format.length with h1 | h1
    · have hfmt : f.format = [] := List.length_eq_zero.mp h1
      simp [h, h0, hopt, hfmt, List.append_assoc]
    · simp [h, h0, hopt, h1, Nat.pos_iff_ne_zero.mp h1, List.append_assoc]
  · have h0' : ¬ f.optional.length = 0 := Nat.pos_iff_ne_zero.mp h0
    rcases Nat.eq_zero_or_pos f.format.length with h1 | h1
    · have hfmt : f.format = [] := List.length_eq_zero.mp h1
      simp [h, h0, h0', hfmt, List.append_assoc]
    · simp [h, h0, h0', h1, List.append_assoc]

/-- Witness for C5: concrete fragments with a custom capture `(\d+)`, one
without and one with a format dot marker, both emit the capture verbatim. -/
theorem claim_c5_witness :
    (0 < "(\\d+)".data.length
      ∧ formatFragment
          { definition := "/:id(\\d+)".data, slash := "/".data, format := [],
            name := "id".data, capture := "(\\d+)".data, optional := [] } =
          "/(?:(\\d+))".data)
    ∧ (formatFragment
          { definition := ".:id(\\d+)".data, slash := [], format := ".".data,
            name := "id".data, capture := "(\\d+)".data, optional := [] } =
          "(?:.(\\d+))".data)
    ∧ (NewRoute "/x.:id(\\d+)" true).map (fun r => r.matchString "/x.5") = some true
    ∧ (NewRoute "/x.:id(\\d+)" true).map (fun r => r.matchString "/x.a") = some false := by
  refine ⟨⟨by decide, ?_⟩, ?_, rfl, rfl⟩
  · rw [claim_c5_amended_capture_verbatim _ (by decide)]; rfl
  · rw [claim_c5_amended_capture_verbatim _ (by decide)]; rfl

/-- Counterexample to C6: for template `/a/:x/:x` the compiled keys are
`["x", "x"]` with length 2, while the number of distinct parameter names in
the template is 1 — keys length counts one entry per fragment occurrence,
not per distinct name. -/
theorem claim_c6_counterexample :
    (NewRoute "/a/:x/:x" false).map (fun r => r.keys) = some ["x".data, "x".data]
    ∧ (NewRoute "/a/:x/:x" false).map (fun r => r.keys.length) = some 2
    ∧ (NewRoute "/a/:x/:x" false).map (fun r => r.keys.dedup.length) = some 1
    ∧ (2 : Nat) ≠ 1 :=
  ⟨rfl, by decide, by decide, by decide⟩

/-- C6 amended: for every template accepted by `NewRoute`, the compiled
keys sequence is exactly the list of fragment names produced by the
left-to-right parameter scan, in scan order and with one entry per
occurrence, so its length is the total number of parameter fragments
(duplicated names counted once per occurrence, not deduplicated). -/
theorem claim_c6_amended_keys (path : String) (strict : Bool) (route : Route)
    (h : NewRoute path strict = some route) :
    route.keys = (splitRoutePathParams path.data).map (·.name)
    ∧ route.keys.length = (splitRoutePathParams path.data).length := by
  unfold NewRoute at h
  cases hc : compileAnchored (anchorPattern (compiledPattern path.data strict)) with
  | none => rw [hc] at h; cases h
  | some r0 =>
      rw [hc] at h
      cases h
      exact ⟨rfl, by simp⟩

/-- Witness for C6: the template `/test/:required/:optional?` yields keys
`["required", "optional"]` in order of appearance. -/
theorem claim_c6_witness :
    ∃ route, NewRoute "/test/:required/:optional?" false = some route
      ∧ route.keys = (splitRoutePathParams "/test/:required/:optional?".data).map (·.name)
      ∧ route.keys = ["required".data, "optional".data] := by
  obtain ⟨route, h⟩ : ∃ route, NewRoute "/test/:required/:optional?" false = some route :=
    ⟨_, rfl⟩
  refine ⟨route, h, (claim_c6_amended_keys _ _ _ h).1, ?_⟩
  rw [(claim_c6_amended_keys _ _ _ h).1]
  rfl

/-! ### Scanner engine lemmas -/

theorem length_dropWhile_le (p : Char → Bool) (l : List Char) :
    (l.dropWhile p).length ≤ l.length := by
  induction l with
  | nil => simp
  | cons c t ih =>
      rw [List.dropWhile_cons]
      by_cases h : p c = true
      · simp only [h, if_true]
        simp only [List.length_cons]
        omega
      · simp [h]

theorem scanCaptureBody_length : ∀ (r body r2 : List Char),
    scanCaptureBody r = some (body, r2) → r2.length < r.length
  | [], _, _, h => by simp [scanCaptureBody] at h
  | c :: rest, body, r2, h => by
      unfold scanCaptureBody at h
      by_cases hc : c = ')'
      · rw [if_pos hc] at h
        simp only [Option.some.injEq, Prod.mk.injEq] at h
        rcases h with ⟨_, rfl⟩
        simp
      · rw [if_neg hc] at h
        by_cases hn : c = '\n'
        · rw [if_pos hn] at h; cases h
        · rw [if_neg hn] at h
          cases hrec : scanCaptureBody rest with
          | none => rw [hrec] at h; cases h
          | some p =>
              rw [hrec] at h
              cases p with
              | mk b r' =>
                  simp only [Option.some.injEq, Prod.mk.injEq] at h
                  rcases h with ⟨_, rfl⟩
                  have := scanCaptureBody_length rest b r' hrec
                  simp only [List.length_cons]
                  omega

theorem scanCapture_not_paren (c : Char) (r : List Char) (hc : c ≠ '(') :
    scanCapture (c :: r) = ([], c :: r) := by
  unfold scanCapture
  split
  next heq => exact absurd (List.cons_eq_cons.mp heq).1 hc
  next => rfl

theorem scanCapture_length (s : List Char) : (scanCapture s).2.length ≤ s.length := by
  cases s with
  | nil => simp [scanCapture]
  | cons c r =>
      by_cases hc : c = '('
      · subst hc
        cases hrec : scanCaptureBody r with
        | none => simp [scanCapture, hrec]
        | some p =>
            cases p with
            | mk b r2 =>
                have := scanCaptureBody_length r b r2 hrec
                simp [scanCapture, hrec]
                omega
      · rw [scanCapture_not_paren c r hc]

theorem scanOpt_not_q (c : Char) (r : List Char) (hc : c ≠ '?') :
    scanOpt (c :: r) = ([], c :: r) := by
  unfold scanOpt
  split
  next heq => exact absurd (List.cons_eq_cons.mp heq).1 hc
  next => rfl

theorem scanOpt_length (s : List Char) : (scanOpt s).2.length ≤ s.length := by
  cases s with
  | nil => simp [scanOpt]
  | cons c r =>
      by_cases hc : c = '?'
      · subst hc; simp [scanOpt]
      · rw [scanOpt_not_q c r hc]

theorem matchParamCore_ne_colon (sl fm : List Char) (c : Char) (t : List Char) (hc : c ≠ ':') :
    matchParamCore sl fm (c :: t) = none := by
  unfold matchParamCore
  split
  next heq => exact absurd (List.cons_eq_cons.mp heq.symm).1.symm hc
  next => rfl

theorem matchParamCore_length (sl fm : List Char) (s : List Char) (f : fragmentedPathParameter)
    (rest' : List Char) (h : matchParamCore sl fm s = some (f, rest')) :
    rest'.length < s.length := by
  cases s with
  | nil => simp [matchParamCore] at h
  | cons c t =>
      by_cases hc : c = ':'
      · subst hc
        simp only [matchParamCore] at h
        by_cases hnm : (t.takeWhile isWordChar).isEmpty
        · rw [if_pos hnm] at h; cases h
        · rw [if_neg hnm] at h
          simp only [Option.some.injEq, Prod.mk.injEq] at h
          rcases h with ⟨_, rfl⟩
          have h1 := scanOpt_length (scanCapture (t.dropWhile isWordChar)).2
          have h2 := scanCapture_length (t.dropWhile isWordChar)
          have h3 := length_dropWhile_le isWordChar t
          simp only [List.length_cons]
          omega
      · rw [matchParamCore_ne_colon sl fm c t hc] at h; cases h

theorem matchParamAt_slash_dot (rest : List Char) :
    matchParamAt ('/' :: '.' :: rest) = matchParamCore ['/'] ['.'] rest := rfl

theorem matchParamAt_dot (c : Char) (rest : List Char) (hc : c ≠ '/') (hd : c = '.') :
    matchParamAt (c :: rest) = matchParamCore [] ['.'] rest := by
  subst hd
  rfl

theorem matchParamAt_slash (c : Char) (rest : List Char) (hc : c ≠ '.') :
    matchParamAt ('/' :: c :: rest) = matchParamCore ['/'] [] (c :: rest) := by
  unfold matchParamAt
  split
  next heq =>
      exact absurd (List.cons_eq_cons.mp (List.cons_eq_cons.mp heq).2).1 hc
  next heq => rw [(List.cons_eq_cons.mp heq).2]
  next heq => exact absurd (List.cons_eq_cons.mp heq).1 (by decide)
  next s h1 h2 h3 => exact absurd rfl (h2 (c :: rest))

theorem matchParamAt_slash_nil : matchParamAt ['/'] = matchParamCore ['/'] [] [] := rfl

theorem matchParamAt_other (c : Char) (t : List Char) (h1 : c ≠ '/') (h2 : c ≠ '.') :
    matchParamAt (c :: t) = matchParamCore [] [] (c :: t) := by
  unfold matchParamAt
  split
  next heq => exact absurd (List.cons_eq_cons.mp heq).1 h1
  next heq => exact absurd (List.cons_eq_cons.mp heq).1 h1
  next heq => exact absurd (List.cons_eq_cons.mp heq).1 h2
  next => rfl

theorem matchParamAt_length (s : List Char) (f : fragmentedPathParameter) (rest' : List Char)
    (h : matchParamAt s = some (f, rest')) : rest'.length < s.length := by
  cases s with
  | nil =>
      have : matchParamAt [] = none := rfl
      rw [this] at h; cases h
  | cons c t =>
      by_cases hc : c = '/'
      · subst hc
        cases t with
        | nil =>
            rw [matchParamAt_slash_nil] at h
            have hnone : matchParamCore ['/'] [] ([] : List Char) = none := rfl
            rw [hnone] at h
            cases h
        | cons c2 t2 =>
            by_cases hc2 : c2 = '.'
            · subst hc2
              rw [matchParamAt_slash_dot] at h
              have := matchParamCore_length ['/'] ['.'] t2 f rest' h
              simp only [List.length_cons]; omega
            · rw [matchParamAt_slash c2 t2 hc2] at h
              have := matchParamCore_length ['/'] [] (c2 :: t2) f rest' h
              simp only [List.length_cons] at this ⊢; omega
      · by_cases hd : c = '.'
        · rw [matchParamAt_dot c t hc hd] at h
          have := matchParamCore_length [] ['.'] t f rest' h
          simp only [List.length_cons]; omega
        · rw [matchParamAt_other c t hc hd] at h
          exact matchParamCore_length [] [] (c :: t) f rest' h

theorem splitAux_fuel_irrel : ∀ (n : Nat) (s : List Char), s.length ≤ n →
    ∀ f1 f2, s.length ≤ f1 → s.length ≤ f2 →
      splitRoutePathParamsAux f1 s = splitRoutePathParamsAux f2 s := by
  intro n
  induction n with
  | zero =>
      intro s hs f1 f2 _ _
      have : s = [] := List.length_eq_zero.mp (Nat.le_zero.mp hs)
      subst this
      cases f1 <;> cases f2 <;> rfl
  | succ n ih =>
      intro s hs f1 f2 h1 h2
      cases s with
      | nil => cases f1 <;> cases f2 <;> rfl
      | cons c t =>
          cases f1 with
          | zero => simp at h1
          | succ f1' =>
              cases f2 with
              | zero => simp at h2
              | succ f2' =>
                  cases hM : matchParamAt (c :: t) with
                  | none =>
                      simp only [splitRoutePathParamsAux, hM]
                      simp only [List.length_cons] at hs h1 h2
                      exact ih t (by omega) f1' f2' (by omega) (by omega)
                  | some p =>
                      cases p with
                      | mk f rest' =>
                          simp only [splitRoutePathParamsAux, hM]
                          have hlen := matchParamAt_length (c :: t) f rest' hM
                          simp only [List.length_cons] at hs h1 h2 hlen
                          rw [ih rest' (by omega) f1' f2' (by omega) (by omega)]

theorem split_cons_none (c : Char) (t : List Char) (h : matchParamAt (c :: t) = none) :
    splitRoutePathParams (c :: t) = splitRoutePathParams t := by
  unfold splitRoutePathParams
  simp only [List.length_cons, splitRoutePathParamsAux, h]

theorem split_cons_some (c : Char) (t : List Char) (f : fragmentedPathParameter)
    (rest' : List Char) (h : matchParamAt (c :: t) = some (f, rest')) :
    splitRoutePathParams (c :: t) = f :: splitRoutePathParams rest' := by
  unfold splitRoutePathParams
  simp only [List.length_cons, splitRoutePathParamsAux, h]
  have hlen := matchParamAt_length (c :: t) f rest' h
  simp only [List.length_cons] at hlen
  rw [splitAux_fuel_irrel t.length rest' (by omega) t.length rest'.length (by omega) le_rfl]

/-! ### Replacement engine lemmas -/

theorem goReplaceAllAux_fuel_irrel (pat rep : List Char) (hpat : pat ≠ []) :
    ∀ (n : Nat) (s : List Char), s.length ≤ n → ∀ f1 f2, s.length ≤ f1 → s.length ≤ f2 →
      goReplaceAllAux f1 s pat rep = goReplaceAllAux f2 s pat rep := by
  have hplen : 1 ≤ pat.length := by
    cases pat with
    | nil => exact absurd rfl hpat
    | cons a b => simp
  intro n
  induction n with
  | zero =>
      intro s hs f1 f2 _ _
      have : s = [] := List.length_eq_zero.mp (Nat.le_zero.mp hs)
      subst this
      cases f1 <;> cases f2 <;> rfl
  | succ n ih =>
      intro s hs f1 f2 h1 h2
      cases s with
      | nil => cases f1 <;> cases f2 <;> rfl
      | cons c t =>
          cases f1 with
          | zero => simp at h1
          | succ f1' =>
              cases f2 with
              | zero => simp at h2
              | succ f2' =>
                  simp only [goReplaceAllAux]
                  by_cases hp : (!pat.isEmpty && pat.isPrefixOf (c :: t)) = true
                  · rw [if_pos hp, if_pos hp]
                    simp only [List.length_cons] at hs h1 h2
                    have hd : ((c :: t).drop pat.length).length = t.length + 1 - pat.length := by
                      simp [List.length_drop]
                    congr 1
                    apply ih
                    · omega
                    · omega
                    · omega
                  · rw [if_neg hp, if_neg hp]
                    simp only [List.length_cons] at hs h1 h2
                    rw [ih t (by omega) f1' f2' (by omega) (by omega)]

theorem goReplaceAll_cons_neg (c : Char) (t pat rep : List Char)
    (h : pat.isPrefixOf (c :: t) = false) :
    goReplaceAll (c :: t) pat rep = c :: goReplaceAll t pat rep := by
  unfold goReplaceAll
  simp only [List.length_cons, goReplaceAllAux, h, Bool.and_false, Bool.false_eq_true, if_false]

theorem goReplaceAll_cons_pos (s pat rep : List Char) (hpat : pat ≠ [])
    (hpre : pat.isPrefixOf s = true) (hs : s ≠ []) :
    goReplaceAll s pat rep = rep ++ goReplaceAll (s.drop pat.length) pat rep := by
  have hplen : 1 ≤ pat.length := by
    cases pat with
    | nil => exact absurd rfl hpat
    | cons a b => simp
  cases s with
  | nil => exact absurd rfl hs
  | cons c t =>
      unfold goReplaceAll
      have hcond : (!pat.isEmpty && pat.isPrefixOf (c :: t)) = true := by
        rw [hpre]
        cases pat with
        | nil => exact absurd rfl hpat
        | cons a b => simp
      simp only [List.length_cons, goReplaceAllAux, hcond, if_true]
      congr 1
      have hd : ((c :: t).drop pat.length).length = t.length + 1 - pat.length := by
        simp [List.length_drop]
      apply goReplaceAllAux_fuel_irrel pat rep hpat ((c :: t).drop pat.length).length
      · exact le_rfl
      · omega
      · exact le_rfl

/-! ### Tokenizer engine lemmas -/

theorem scanClassItems_length : ∀ (n : Nat) (s : List Char), s.length ≤ n →
    ∀ (acc items : List ClassItem) (rest2 : List Char),
      scanClassItems s acc = some (items, rest2) → rest2.length < s.length := by
  intro n
  induction n with
  | zero =>
      intro s hs acc items rest2 h
      have : s = [] := List.length_eq_zero.mp (Nat.le_zero.mp hs)
      subst this
      cases h
  | succ n ih =>
      intro s hs acc items rest2 h
      unfold scanClassItems at h
      split at h
      · cases h
      · simp only [Option.some.injEq, Prod.mk.injEq] at h
        rcases h with ⟨-, rfl⟩
        simp
      · cases h
      · rename_i c rest
        cases hesc : escClassItems c with
        | none => rw [hesc] at h; cases h
        | some its =>
            rw [hesc] at h
            simp only [List.length_cons] at hs ⊢
            have := ih rest (by omega) (its.reverse ++ acc) items rest2 h
            omega
      · rename_i a b rest hA hB
        by_cases hb : b = ']'
        · rw [if_pos hb] at h
          simp only [List.length_cons] at hs ⊢
          have := ih ('-' :: b :: rest) (by simp; omega) (.single a :: acc) items rest2 h
          simp only [List.length_cons] at this
          omega
        · rw [if_neg hb] at h
          by_cases ha : a = '\\'
          · rw [if_pos ha] at h; cases h
          · rw [if_neg ha] at h
            simp only [List.length_cons] at hs ⊢
            have := ih rest (by omega) (.range a b :: acc) items rest2 h
            omega
      · rename_i a rest hA hB hC hD
        simp only [List.length_cons] at hs ⊢
        have := ih rest (by omega) (.single a :: acc) items rest2 h
        omega

theorem stripLazy_length (r : List Char) : (stripLazy r).length ≤ r.length := by
  unfold stripLazy
  split
  · simp
  · exact le_rfl

theorem scanClassBody_length (rest : List Char) (neg : Bool) (items : List ClassItem)
    (rest2 : List Char) (h : scanClassBody rest = some (neg, (items, rest2))) :
    rest2.length ≤ rest.length := by
  unfold scanClassBody at h
  split at h
  · rename_i r2
    rw [Option.map_eq_some'] at h
    rcases h with ⟨⟨items0, rest0⟩, hsc, hpair⟩
    simp only [Prod.mk.injEq] at hpair
    rcases hpair with ⟨-, -, rfl⟩
    have := scanClassItems_length r2.length r2 le_rfl [.single ']'] items0 _ hsc
    simp only [List.length_cons]
    omega
  · rename_i r1 hne
    rw [Option.map_eq_some'] at h
    rcases h with ⟨⟨items0, rest0⟩, hsc, hpair⟩
    simp only [Prod.mk.injEq] at hpair
    rcases hpair with ⟨-, -, rfl⟩
    have := scanClassItems_length r1.length r1 le_rfl [] items0 _ hsc
    simp only [List.length_cons]
    omega
  · rename_i r2
    rw [Option.map_eq_some'] at h
    rcases h with ⟨⟨items0, rest0⟩, hsc, hpair⟩
    simp only [Prod.mk.injEq] at hpair
    rcases hpair with ⟨-, -, rfl⟩
    have := scanClassItems_length r2.length r2 le_rfl [.single ']'] items0 _ hsc
    simp only [List.length_cons]
    omega
  · rw [Option.map_eq_some'] at h
    rcases h with ⟨⟨items0, rest0⟩, hsc, hpair⟩
    simp only [Prod.mk.injEq] at hpair
    rcases hpair with ⟨-, -, rfl⟩
    have := scanClassItems_length rest.length rest le_rfl [] items0 _ hsc
    omega

theorem tokenizeStep_length (s : List Char) (t : Tok) (rest' : List Char)
    (h : tokenizeStep s = .emit t rest') : rest'.length < s.length := by
  unfold tokenizeStep at h
  split at h
  · cases h
  · cases h
  · rename_i c rest
    cases he : escAtomTok c with
    | none => rw [he] at h; cases h
    | some tk =>
        rw [he] at h
        cases h
        simp only [List.length_cons]
        omega
  · rename_i rest
    split at h
    · cases h
    · rename_i neg items rest2 heq
      have hscan : rest2.length ≤ rest.length := scanClassBody_length rest neg items rest2 heq
      injection h with h1 h2
      subst h2
      simp only [List.length_cons]
      omega
  · cases h; simp only [List.length_cons]; omega
  · cases h
  · cases h; simp only [List.length_cons]; omega
  · cases h; simp only [List.length_cons]; omega
  · cases h; simp only [List.length_cons]; omega
  · cases h; simp only [List.length_cons]; omega
  · rename_i rest
    split at h
    · cases h
    · cases h
      have := stripLazy_length rest
      simp only [List.length_cons]
      omega
  · rename_i rest
    split at h
    · cases h
    · cases h
      have := stripLazy_length rest
      simp only [List.length_cons]
      omega
  · rename_i rest
    split at h
    · cases h
    · cases h
      have := stripLazy_length rest
      simp only [List.length_cons]
      omega
  · cases h
  · cases h
  · cases h
  · cases h
  · cases h; simp only [List.length_cons]; omega

theorem tokenizeAux_fuel_irrel : ∀ (n : Nat) (s : List Char), s.length ≤ n →
    ∀ f1 f2, s.length ≤ f1 → s.length ≤ f2 → tokenizeAux f1 s = tokenizeAux f2 s := by
  intro n
  induction n with
  | zero =>
      intro s hs f1 f2 _ _
      have : s = [] := List.length_eq_zero.mp (Nat.le_zero.mp hs)
      subst this
      cases f1 <;> cases f2 <;> rfl
  | succ n ih =>
      intro s hs f1 f2 h1 h2
      cases s with
      | nil => cases f1 <;> cases f2 <;> rfl
      | cons c rest =>
          cases f1 with
          | zero => simp at h1
          | succ f1' =>
              cases f2 with
              | zero => simp at h2
              | succ f2' =>
                  cases hstep : tokenizeStep (c :: rest) with
                  | done => simp only [tokenizeAux, hstep]
                  | failStep => simp only [tokenizeAux, hstep]
                  | emit t0 rest' =>
                      simp only [tokenizeAux, hstep]
                      have hlen := tokenizeStep_length (c :: rest) t0 rest' hstep
                      simp only [List.length_cons] at hs h1 h2 hlen
                      rw [ih rest' (by omega) f1' f2' (by omega) (by omega)]

theorem scanClassItems_close (t : List Char) (acc : List ClassItem) :
    scanClassItems (']' :: t) acc = some (acc.reverse, t) := by
  unfold scanClassItems
  split
  · rename_i heq; simp at heq
  · rename_i heq
    obtain ⟨-, h2⟩ := List.cons_eq_cons.mp heq
    subst h2
    rfl
  · rename_i heq; exact absurd (List.cons_eq_cons.mp heq).1 (by decide)
  · rename_i heq; exact absurd (List.cons_eq_cons.mp heq).1 (by decide)
  · rename_i hA hB heq; exact absurd (List.cons_eq_cons.mp heq).1.symm hA
  · rename_i hA hB hC hD heq; exact absurd (List.cons_eq_cons.mp heq).1.symm hA

theorem tokenizeStep_class (rest0 : List Char) (neg : Bool) (items : List ClassItem)
    (r2 : List Char) (h : scanClassBody rest0 = some (neg, (items, r2))) :
    tokenizeStep ('[' :: rest0) = .emit (.tcls neg items) r2 := by
  conv_lhs => whnf
  rw [h]

theorem tokenizeStep_clsNoSlash (rest : List Char) :
    tokenizeStep ('[' :: '^' :: '\\' :: '/' :: ']' :: rest) =
      .emit (.tcls true [.single '/']) rest := by
  apply tokenizeStep_class
  have h0 : scanClassBody ('^' :: '\\' :: '/' :: ']' :: rest) =
      (scanClassItems ('\\' :: '/' :: ']' :: rest) []).map (fun p => (true, p)) := rfl
  have h1 : scanClassItems ('\\' :: '/' :: ']' :: rest) ([] : List ClassItem) =
      scanClassItems (']' :: rest) [ClassItem.single '/'] := rfl
  rw [h0, h1, scanClassItems_close]
  rfl

theorem tokenizeStep_word (c : Char) (rest : List Char) (hc : isWordChar c = true) :
    tokenizeStep (c :: rest) = .emit (.lit c) rest := by
  unfold tokenizeStep
  split <;>
    first
      | rfl
      | (rename_i heq; simp at heq; done)
      | (rename_i heq
         obtain ⟨h1, h2⟩ := List.cons_eq_cons.mp heq
         subst h1
         subst h2
         rfl)
      | (rename_i heq
         have hcc := (List.cons_eq_cons.mp heq).1
         subst hcc
         exact absurd hc (by decide))

theorem tokenizeStep_topt (rest : List Char) (h1 : stripLazy rest = rest)
    (h2 : headIsQuant rest = false) :
    tokenizeStep ('?' :: rest) = .emit .topt rest := by
  conv_lhs => whnf
  rw [h1, h2]
  rfl

theorem tokenize_cons (c : Char) (rest : List Char) (t : Tok) (rest' : List Char)
    (h : tokenizeStep (c :: rest) = .emit t rest') :
    tokenize (c :: rest) = (tokenize rest').map (t :: ·) := by
  unfold tokenize
  simp only [List.length_cons, tokenizeAux, h]
  have hlen := tokenizeStep_length (c :: rest) t rest' h
  simp only [List.length_cons] at hlen
  rw [tokenizeAux_fuel_irrel rest.length rest' (by omega) rest.length rest'.length (by omega)
    le_rfl]

/-! ### The parameter scan on simple templates -/

theorem matchParamAt_word_none (c : Char) (t : List Char) (hc : isWordChar c = true) :
    matchParamAt (c :: t) = none := by
  have h1 : c ≠ '/' := fun h => by subst h; exact absurd hc (by decide)
  have h2 : c ≠ '.' := fun h => by subst h; exact absurd hc (by decide)
  rw [matchParamAt_other c t h1 h2]
  exact matchParamCore_ne_colon [] [] c t (fun h => by subst h; exact absurd hc (by decide))

theorem matchParamAt_slash_word (b : Char) (t : List Char) (hb : isWordChar b = true) :
    matchParamAt ('/' :: b :: t) = none := by
  rw [matchParamAt_slash b t (fun h => by subst h; exact absurd hb (by decide))]
  exact matchParamCore_ne_colon ['/'] [] b t (fun h => by subst h; exact absurd hb (by decide))

theorem takeWhile_word_append (w t : List Char) (hw : ∀ c ∈ w, isWordChar c = true)
    (ht : ∀ c, t.head? = some c → isWordChar c = false) :
    (w ++ t).takeWhile isWordChar = w ∧ (w ++ t).dropWhile isWordChar = t := by
  induction w with
  | nil =>
      cases t with
      | nil => simp
      | cons c r =>
          have hc := ht c rfl
          simp [List.takeWhile_cons, List.dropWhile_cons, hc]
  | cons a w' ih =>
      have ha : isWordChar a = true := hw a (by simp)
      have hw' : ∀ c ∈ w', isWordChar c = true := fun c hc => hw c (by simp [hc])
      obtain ⟨ih1, ih2⟩ := ih hw'
      simp [List.takeWhile_cons, List.dropWhile_cons, ha, ih1, ih2]

theorem matchParamAt_param (nm : List Char) (opt : Bool) (rest : List Char)
    (hnm : wordishB nm = true)
    (hrest : rest = [] ∨ ∃ r, rest = '/' :: r) :
    matchParamAt ('/' :: ':' :: ((nm ++ if opt then ['?'] else []) ++ rest)) =
      some (fragOfParam nm opt, rest) := by
  have hnmne : nm ≠ [] := by
    intro h
    rw [h] at hnm
    exact absurd hnm (by decide)
  have hnmw : ∀ c ∈ nm, isWordChar c = true := by
    intro c hc
    unfold wordishB at hnm
    rw [Bool.and_eq_true] at hnm
    exact List.all_eq_true.mp hnm.2 c hc
  have hcolon : (':' : Char) ≠ '.' := by decide
  rw [matchParamAt_slash ':' _ hcolon]
  have htw : ((nm ++ if opt then ['?'] else []) ++ rest).takeWhile isWordChar = nm ∧
      ((nm ++ if opt then ['?'] else []) ++ rest).dropWhile isWordChar =
        (if opt then ['?'] else []) ++ rest := by
    rw [List.append_assoc]
    apply takeWhile_word_append nm _ hnmw
    intro c hc
    cases opt with
    | true =>
        rw [show ((if (true : Bool) = true then ['?'] else ([] : List Char)) ++ rest) =
          '?' :: rest from rfl] at hc
        simp only [List.head?_cons, Option.some.injEq] at hc
        subst hc
        decide
    | false =>
        rw [show ((if (false : Bool) = true then ['?'] else ([] : List Char)) ++ rest) =
          rest from rfl] at hc
        rcases hrest with rfl | ⟨r, rfl⟩
        · cases hc
        · simp only [List.head?_cons, Option.some.injEq] at hc
          subst hc
          decide
  simp only [matchParamCore, htw.1, htw.2]
  have hne : nm.isEmpty = false := by
    cases nm with
    | nil => exact absurd rfl hnmne
    | cons a b => rfl
  rw [hne]
  simp only [Bool.false_eq_true, if_false]
  cases opt with
  | true =>
      rw [show ((if (true : Bool) = true then ['?'] else ([] : List Char)) ++ rest) = '?' :: rest
        from rfl]
      rw [scanCapture_not_paren '?' rest (by decide)]
      simp [fragOfParam, scanOpt]
  | false =>
      rcases hrest with rfl | ⟨r, rfl⟩
      · simp [fragOfParam, scanCapture, scanOpt]
      · rw [show ((if (false : Bool) = true then ['?'] else ([] : List Char)) ++ ('/' :: r)) =
            '/' :: r from rfl]
        rw [scanCapture_not_paren '/' r (by decide)]
        simp [fragOfParam, scanOpt_not_q '/' r (by decide)]

theorem split_wordrun (w t : List Char) (hw : ∀ c ∈ w, isWordChar c = true) :
    splitRoutePathParams (w ++ t) = splitRoutePathParams t := by
  induction w with
  | nil => rfl
  | cons a w' ih =>
      have ha := hw a (by simp)
      rw [List.cons_append, split_cons_none a (w' ++ t) (matchParamAt_word_none a _ ha)]
      exact ih (fun c hc => hw c (by simp [hc]))

theorem renderSegs_shape (segs : List Seg) :
    renderSegs segs = [] ∨ ∃ r, renderSegs segs = '/' :: r := by
  cases segs with
  | nil => left; rfl
  | cons s r2 =>
      right
      cases s with
      | lit w => exact ⟨w ++ renderSegs r2, by simp [renderSegs, renderSeg]⟩
      | param nm opt =>
          exact ⟨':' :: ((nm ++ if opt then ['?'] else []) ++ renderSegs r2),
            by simp [renderSegs, renderSeg]⟩

theorem split_render : ∀ (segs : List Seg), (∀ s ∈ segs, segWFB s = true) →
    splitRoutePathParams (renderSegs segs) = fragsOfSegs segs := by
  intro segs
  induction segs with
  | nil => intro _; rfl
  | cons s rest ih =>
      intro hwf
      have hs := hwf s (by simp)
      have hrest : ∀ x ∈ rest, segWFB x = true := fun x hx => hwf x (by simp [hx])
      cases s with
      | lit w =>
          have hr : renderSegs (Seg.lit w :: rest) = '/' :: (w ++ renderSegs rest) := by
            simp [renderSegs, renderSeg]
          rw [hr]
          cases hww : w with
          | nil =>
              rw [hww] at hs
              exact absurd hs (by decide)
          | cons b w' =>
              rw [hww] at hs
              have hbw : ∀ c ∈ b :: w', isWordChar c = true := by
                intro c hc
                unfold segWFB wordishB at hs
                rw [Bool.and_eq_true] at hs
                exact List.all_eq_true.mp hs.2 c hc
              rw [split_cons_none '/' _ (by
                rw [List.cons_append]
                exact matchParamAt_slash_word b _ (hbw b (by simp)))]
              rw [split_wordrun (b :: w') _ hbw]
              exact ih hrest
      | param nm opt =>
          have hr : renderSegs (Seg.param nm opt :: rest) =
              '/' :: ':' :: ((nm ++ if opt then ['?'] else []) ++ renderSegs rest) := by
            simp [renderSegs, renderSeg]
          rw [hr]
          have hM := matchParamAt_param nm opt (renderSegs rest) hs (renderSegs_shape rest)
          rw [split_cons_some _ _ _ _ hM, ih hrest]
          rfl

/-! ### Occurrence and substitution lemmas -/

theorem replaceCaptureParams_cons_ne (c : Char) (t : List Char) (h : t.head? ≠ some '(') :
    replaceCaptureParams (c :: t) = c :: replaceCaptureParams t := by
  conv_lhs => rw [replaceCaptureParams.eq_def]
  split
  · rename_i heq
    have h2 := (List.cons_eq_cons.mp heq).2
    rw [h2] at h
    exact absurd rfl h
  · rename_i heq
    obtain ⟨h1, h2⟩ := List.cons_eq_cons.mp heq
    subst h1
    subst h2
    rfl
  · rename_i heq
    cases heq

theorem replaceCaptureParams_eq_self : ∀ (s : List Char), '(' ∉ s →
    replaceCaptureParams s = s := by
  intro s
  induction s with
  | nil => intro _; rfl
  | cons c t ih =>
      intro h
      have h1 : '(' ∉ t := fun hc => h (List.mem_cons_of_mem _ hc)
      have h2 : t.head? ≠ some '(' := by
        intro hc
        cases t with
        | nil => cases hc
        | cons x r =>
            simp only [List.head?_cons, Option.some.injEq] at hc
            exact h1 (by simp [hc])
      rw [replaceCaptureParams_cons_ne c t h2, ih h1]

theorem noPair_nil (a b : Char) : noPair a b [] = true := rfl

theorem noPair_one (a b x : Char) : noPair a b [x] = true := rfl

theorem noPair_cons2 (a b x y : Char) (s : List Char) :
    noPair a b (x :: y :: s) = (!(x == a && y == b) && noPair a b (y :: s)) := rfl

theorem noPair_tail (a b x : Char) (s : List Char) (h : noPair a b (x :: s) = true) :
    noPair a b s = true := by
  cases s with
  | nil => rfl
  | cons y r =>
      rw [noPair_cons2, Bool.and_eq_true] at h
      exact h.2

theorem noPair_append (a b : Char) : ∀ (P Q : List Char), noPair a b P = true →
    noPair a b Q = true → ¬(P.getLast? = some a ∧ Q.head? = some b) →
    noPair a b (P ++ Q) = true
  | [], Q, _, hQ, _ => hQ
  | [x], Q, _, hQ, hbd => by
      cases Q with
      | nil => rfl
      | cons y Q2 =>
          have hxy : ¬(x = a ∧ y = b) := by
            intro ⟨hx, hy⟩
            exact hbd ⟨by rw [hx]; rfl, by rw [hy]; rfl⟩
          rw [List.singleton_append, noPair_cons2, Bool.and_eq_true]
          refine ⟨?_, hQ⟩
          rw [Bool.not_eq_true']
          rw [Bool.and_eq_false_iff]
          by_cases hx : x = a
          · right
            rw [beq_eq_false_iff_ne]
            exact fun hy => hxy ⟨hx, hy⟩
          · left
            rw [beq_eq_false_iff_ne]
            exact hx
  | x1 :: x2 :: P2, Q, hP, hQ, hbd => by
      rw [noPair_cons2, Bool.and_eq_true] at hP
      have hlast : (x2 :: P2).getLast? = (x1 :: x2 :: P2).getLast? := by
        rw [List.getLast?_cons_cons]
      rw [List.cons_append, List.cons_append, noPair_cons2, Bool.and_eq_true]
      exact ⟨hP.1, noPair_append a b (x2 :: P2) Q hP.2 hQ (by rw [hlast]; exact hbd)⟩

theorem noPair_word (a b : Char) (hb : isWordChar b = false) :
    ∀ (w : List Char), (∀ c ∈ w, isWordChar c = true) → noPair a b w = true
  | [], _ => rfl
  | [x], _ => rfl
  | x :: y :: w, hw => by
      rw [noPair_cons2, Bool.and_eq_true]
      constructor
      · rw [Bool.not_eq_true', Bool.and_eq_false_iff]
        right
        rw [beq_eq_false_iff_ne]
        intro hyb
        rw [hyb] at hw
        have := hw b (by simp)
        rw [this] at hb
        cases hb
      · exact noPair_word a b hb (y :: w) (fun c hc => hw c (by simp at hc ⊢; tauto))

theorem noPair_no_occur (a b : Char) : ∀ (s : List Char), noPair a b s = true →
    ∀ (n : Nat) (tl : List Char), ¬ ((a :: b :: tl) <+: s.drop n)
  | [], _, n, tl => by
      intro hp
      rw [List.drop_nil] at hp
      rw [List.prefix_nil] at hp
      cases hp
  | [x], _, n, tl => by
      intro hp
      cases n with
      | zero =>
          rw [List.drop_zero] at hp
          rw [List.cons_prefix_cons] at hp
          rcases hp with ⟨-, hp2⟩
          rw [List.prefix_nil] at hp2
          cases hp2
      | succ n =>
          rw [List.drop_succ_cons, List.drop_nil, List.prefix_nil] at hp
          cases hp
  | x :: y :: s, h, n, tl => by
      intro hp
      cases n with
      | zero =>
          rw [List.drop_zero, List.cons_prefix_cons] at hp
          rcases hp with ⟨rfl, hp2⟩
          rw [List.cons_prefix_cons] at hp2
          rcases hp2 with ⟨rfl, -⟩
          rw [noPair_cons2, Bool.and_eq_true] at h
          have := h.1
          simp at this
      | succ n =>
          rw [List.drop_succ_cons] at hp
          exact noPair_no_occur a b (y :: s) (noPair_tail a b x (y :: s) h) n tl hp

theorem no_defn_occur_in_prefix (tl : List Char) :
    ∀ (P : List Char), noPair '/' ':' P = true → P.getLast? ≠ some '/' →
    ∀ (S : List Char) (n : Nat), n < P.length → ¬ (('/' :: ':' :: tl) <+: (P ++ S).drop n)
  | [], _, _, S, n, hn => by cases hn
  | x :: P2, h1, h2, S, n, hn => by
      intro hp
      cases n with
      | zero =>
          rw [List.drop_zero, List.cons_append, List.cons_prefix_cons] at hp
          rcases hp with ⟨rfl, hp2⟩
          cases P2 with
          | nil => exact h2 rfl
          | cons y P3 =>
              rw [List.cons_append, List.cons_prefix_cons] at hp2
              rcases hp2 with ⟨rfl, -⟩
              rw [noPair_cons2, Bool.and_eq_true] at h1
              have := h1.1
              simp at this
      | succ n =>
          simp only [List.length_cons] at hn
          cases P2 with
          | nil => simp only [List.length_nil] at hn; omega
          | cons y P3 =>
              rw [List.cons_append, List.drop_succ_cons] at hp
              exact no_defn_occur_in_prefix tl (y :: P3)
                (noPair_tail '/' ':' x (y :: P3) h1)
                (by rw [← List.getLast?_cons_cons]; exact h2) S n (by omega) hp

theorem append_not_prefix_of_incomp : ∀ (nm nm' X Y : List Char),
    ¬ (nm <+: nm') → ¬ (nm' <+: nm) → ¬ ((nm ++ X) <+: (nm' ++ Y))
  | [], nm', _, _, h1, _ => fun _ => h1 (List.nil_prefix ..)
  | a :: nm1, [], _, _, _, h2 => fun _ => h2 (List.nil_prefix ..)
  | a :: nm1, b :: nm1', X, Y, h1, h2 => by
      intro hp
      rw [List.cons_append, List.cons_append, List.cons_prefix_cons] at hp
      rcases hp with ⟨rfl, hp2⟩
      exact append_not_prefix_of_incomp nm1 nm1' X Y
        (fun hq => h1 (List.cons_prefix_cons.mpr ⟨rfl, hq⟩))
        (fun hq => h2 (List.cons_prefix_cons.mpr ⟨rfl, hq⟩)) hp2

theorem incompB_not_prefix (nm nm' : List Char) (h : incompB nm nm' = true) :
    ¬ (nm <+: nm') ∧ ¬ (nm' <+: nm) := by
  unfold incompB at h
  rw [Bool.and_eq_true, Bool.not_eq_true', Bool.not_eq_true'] at h
  constructor
  · intro hp
    rw [← List.isPrefixOf_iff_prefix] at hp
    rw [hp] at h
    cases h.1
  · intro hp
    rw [← List.isPrefixOf_iff_prefix] at hp
    rw [hp] at h
    cases h.2

theorem goReplaceAll_no_occur (pat rep : List Char) (hpat : pat ≠ []) :
    ∀ (s : List Char), (∀ n, ¬ (pat <+: s.drop n)) → goReplaceAll s pat rep = s
  | [], _ => rfl
  | c :: t, h => by
      have h0 : pat.isPrefixOf (c :: t) = false := by
        rw [Bool.eq_false_iff]
        intro hpre
        exact h 0 (by rw [List.drop_zero]; exact List.isPrefixOf_iff_prefix.mp hpre)
      rw [goReplaceAll_cons_neg c t pat rep h0]
      rw [goReplaceAll_no_occur pat rep hpat t (fun n => h (n + 1))]

theorem goReplaceAll_append_left (pat rep : List Char) (hpat : pat ≠ []) :
    ∀ (A B : List Char), (∀ n, n < A.length → ¬ (pat <+: (A ++ B).drop n)) →
      goReplaceAll (A ++ B) pat rep = A ++ goReplaceAll B pat rep
  | [], B, _ => rfl
  | x :: A2, B, h => by
      have h0 : pat.isPrefixOf (x :: (A2 ++ B)) = false := by
        rw [Bool.eq_false_iff]
        intro hpre
        have hp : pat <+: List.drop 0 ((x :: A2) ++ B) := by
          rw [List.drop_zero, List.cons_append]
          exact List.isPrefixOf_iff_prefix.mp hpre
        exact h 0 (by simp) hp
      have htail : ∀ n, n < A2.length → ¬ (pat <+: (A2 ++ B).drop n) := by
        intro n hn hp
        have hlt : n + 1 < (x :: A2).length := by
          simp only [List.length_cons]; omega
        have hp2 : pat <+: List.drop (n + 1) ((x :: A2) ++ B) := by
          rw [List.cons_append, List.drop_succ_cons]
          exact hp
        exact h (n + 1) hlt hp2
      rw [List.cons_append, goReplaceAll_cons_neg x (A2 ++ B) pat rep h0]
      rw [goReplaceAll_append_left pat rep hpat A2 B htail]
      rfl

theorem no_occur_word_run (tl : List Char) : ∀ (w S : List Char),
    (∀ c ∈ w, isWordChar c = true) → (∀ n, ¬ (('/' :: tl) <+: S.drop n)) →
    ∀ n, ¬ (('/' :: tl) <+: (w ++ S).drop n)
  | [], _, _, hS => hS
  | a :: w2, S, hw, hS => by
      intro n hp
      cases n with
      | zero =>
          rw [List.drop_zero, List.cons_append, List.cons_prefix_cons] at hp
          rcases hp with ⟨rfl, -⟩
          have := hw '/' (by simp)
          exact absurd this (by decide)
      | succ n =>
          rw [List.cons_append, List.drop_succ_cons] at hp
          exact no_occur_word_run tl w2 S
            (fun c hc => hw c (by simp at hc ⊢; tauto)) hS n hp

theorem getLast?_all : ∀ (w : List Char) (p : Char → Bool), w.all p = true →
    ∀ c, w.getLast? = some c → p c = true
  | [], _, _, c => by intro h; cases h
  | [x], p, hall, c => by
      intro h
      have hx : x = c := by
        have := Option.some.inj h
        exact this
      subst hx
      simp only [List.all_cons, List.all_nil, Bool.and_true] at hall
      exact hall
  | x :: y :: w, p, hall, c => by
      intro h
      rw [List.getLast?_cons_cons] at h
      simp only [List.all_cons, Bool.and_eq_true] at hall
      have htail : (y :: w).all p = true := by
        simp only [List.all_cons, Bool.and_eq_true]
        exact hall.2
      exact getLast?_all (y :: w) p htail c h

theorem getLast?_append_cons : ∀ (P : List Char) (c : Char) (w : List Char),
    (P ++ c :: w).getLast? = (c :: w).getLast?
  | [], _, _ => rfl
  | x :: P2, c, w => by
      rw [List.cons_append]
      cases P2 with
      | nil => rw [List.nil_append, List.getLast?_cons_cons]
      | cons y P3 =>
          rw [List.cons_append, List.getLast?_cons_cons, ← List.cons_append]
          exact getLast?_append_cons (y :: P3) c w

theorem wordishB_parts (w : List Char) (h : wordishB w = true) :
    w ≠ [] ∧ ∀ c ∈ w, isWordChar c = true := by
  unfold wordishB at h
  rw [Bool.and_eq_true] at h
  constructor
  · intro hw
    subst hw
    simp at h
  · intro c hc
    have := h.2
    rw [List.all_eq_true] at this
    exact this c hc

theorem noPair_slash_word (w : List Char) (hw : ∀ c ∈ w, isWordChar c = true) :
    noPair '/' ':' ('/' :: w) = true := by
  cases w with
  | nil => rfl
  | cons b w2 =>
      rw [noPair_cons2, Bool.and_eq_true]
      constructor
      · have hb := hw b (by simp)
        rw [Bool.not_eq_true', Bool.and_eq_false_iff]
        right
        rw [beq_eq_false_iff_ne]
        intro hbe
        rw [hbe] at hb
        exact absurd hb (by decide)
      · exact noPair_word '/' ':' (by decide) (b :: w2) hw

theorem mem_paramNames : ∀ (segs : List Seg) (nm : List Char) (o : Bool),
    Seg.param nm o ∈ segs → nm ∈ paramNames segs
  | [], _, _ => by intro h; cases h
  | Seg.lit w :: rest, nm, o => by
      intro h
      rcases List.mem_cons.mp h with h1 | h2
      · cases h1
      · exact mem_paramNames rest nm o h2
  | Seg.param nm2 o2 :: rest, nm, o => by
      intro h
      rcases List.mem_cons.mp h with h1 | h2
      · rw [paramNames]
        cases h1
        exact List.mem_cons_self ..
      · rw [paramNames]
        exact List.mem_cons_of_mem _ (mem_paramNames rest nm o h2)

theorem namesOKB_parts (n : List Char) (rest : List (List Char))
    (h : namesOKB (n :: rest) = true) :
    (∀ m ∈ rest, incompB n m = true) ∧ namesOKB rest = true := by
  unfold namesOKB at h
  rw [Bool.and_eq_true] at h
  refine ⟨?_, h.2⟩
  intro m hm
  have := h.1
  rw [List.all_eq_true] at this
  exact this m hm

theorem render_no_defn_occur (nm mark : List Char) :
    ∀ (segs : List Seg), (∀ s ∈ segs, segWFB s = true) →
    (∀ nm2 o2, Seg.param nm2 o2 ∈ segs → incompB nm nm2 = true) →
    ∀ (tail0 : List Char), tail0 = [] ∨ tail0 = ['/', '?'] →
    ∀ n, ¬ (('/' :: ':' :: (nm ++ mark)) <+: (renderSegs segs ++ tail0).drop n) := by
  intro segs
  induction segs with
  | nil =>
      intro _ _ tail0 htail n hp
      rcases htail with rfl | rfl
      · rw [show renderSegs [] ++ ([] : List Char) = [] from rfl, List.drop_nil,
            List.prefix_nil] at hp
        cases hp
      · rw [show renderSegs [] ++ ['/', '?'] = ['/', '?'] from rfl] at hp
        cases n with
        | zero =>
            rw [List.drop_zero, List.cons_prefix_cons] at hp
            rcases hp with ⟨-, hp2⟩
            rw [List.cons_prefix_cons] at hp2
            exact absurd hp2.1 (by decide)
        | succ n =>
            cases n with
            | zero =>
                rw [show List.drop 1 ['/', '?'] = ['?'] from rfl,
                    List.cons_prefix_cons] at hp
                exact absurd hp.1 (by decide)
            | succ n =>
                rw [List.drop_succ_cons, List.drop_succ_cons, List.drop_nil,
                    List.prefix_nil] at hp
                cases hp
  | cons seg rest ih =>
      intro hwf hinc tail0 htail
      have hrest : ∀ n, ¬ (('/' :: ':' :: (nm ++ mark)) <+:
          (renderSegs rest ++ tail0).drop n) :=
        ih (fun s hs => hwf s (List.mem_cons_of_mem _ hs))
          (fun nm2 o2 h2 => hinc nm2 o2 (List.mem_cons_of_mem _ h2)) tail0 htail
      cases seg with
      | lit w =>
          obtain ⟨hne, hall⟩ := wordishB_parts w (hwf (Seg.lit w) (by simp))
          have hshape : renderSegs (Seg.lit w :: rest) ++ tail0 =
              '/' :: (w ++ (renderSegs rest ++ tail0)) := by
            simp [renderSegs, renderSeg]
          rw [hshape]
          intro n hp
          cases n with
          | zero =>
              rw [List.drop_zero, List.cons_prefix_cons] at hp
              rcases hp with ⟨-, hp2⟩
              cases w with
              | nil => exact hne rfl
              | cons a w2 =>
                  rw [List.cons_append, List.cons_prefix_cons] at hp2
                  rcases hp2 with ⟨ha, -⟩
                  have haw := hall a (by simp)
                  rw [← ha] at haw
                  exact absurd haw (by decide)
          | succ n =>
              rw [List.drop_succ_cons] at hp
              exact no_occur_word_run (':' :: (nm ++ mark)) w
                (renderSegs rest ++ tail0) hall hrest n hp
      | param nm2 o2 =>
          obtain ⟨hne2, hall2⟩ := wordishB_parts nm2 (hwf (Seg.param nm2 o2) (by simp))
          obtain ⟨hi1, hi2⟩ := incompB_not_prefix nm nm2 (hinc nm2 o2 (by simp))
          have hshape : renderSegs (Seg.param nm2 o2 :: rest) ++ tail0 =
              '/' :: ':' :: (nm2 ++ (((if o2 then ['?'] else []) : List Char) ++
                (renderSegs rest ++ tail0))) := by
            cases o2 <;> simp [renderSegs, renderSeg]
          rw [hshape]
          have hS : ∀ m, ¬ (('/' :: ':' :: (nm ++ mark)) <+:
              ((((if o2 then ['?'] else []) : List Char) ++
                (renderSegs rest ++ tail0))).drop m) := by
            cases o2 with
            | false =>
                intro m
                rw [show (((if false then ['?'] else []) : List Char)) = [] from rfl,
                    List.nil_append]
                exact hrest m
            | true =>
                intro m hp
                rw [show (((if true then ['?'] else []) : List Char)) = ['?'] from rfl,
                    List.singleton_append] at hp
                cases m with
                | zero =>
                    rw [List.drop_zero, List.cons_prefix_cons] at hp
                    exact absurd hp.1 (by decide)
                | succ m =>
                    rw [List.drop_succ_cons] at hp
                    exact hrest m hp
          intro n hp
          cases n with
          | zero =>
              rw [List.drop_zero, List.cons_prefix_cons] at hp
              rcases hp with ⟨-, hp2⟩
              rw [List.cons_prefix_cons] at hp2
              rcases hp2 with ⟨-, hp3⟩
              exact append_not_prefix_of_incomp nm nm2 mark _ hi1 hi2 hp3
          | succ n =>
              cases n with
              | zero =>
                  rw [show List.drop 1 ('/' :: ':' :: (nm2 ++ _)) = ':' :: (nm2 ++ _)
                        from rfl, List.cons_prefix_cons] at hp
                  exact absurd hp.1 (by decide)
              | succ n =>
                  rw [List.drop_succ_cons, List.drop_succ_cons] at hp
                  exact no_occur_word_run (':' :: (nm ++ mark)) nm2 _ hall2 hS n hp

theorem goReplaceAll_exact (P d R rep : List Char) (hd : d ≠ [])
    (hP : ∀ n, n < P.length → ¬ (d <+: (P ++ (d ++ R)).drop n))
    (hR : ∀ n, ¬ (d <+: R.drop n)) :
    goReplaceAll (P ++ (d ++ R)) d rep = P ++ (rep ++ R) := by
  rw [goReplaceAll_append_left d rep hd P (d ++ R) hP]
  have hpre : d.isPrefixOf (d ++ R) = true :=
    List.isPrefixOf_iff_prefix.mpr (List.prefix_append d R)
  have hne : d ++ R ≠ [] := by
    cases d with
    | nil => exact absurd rfl hd
    | cons a b => simp
  rw [goReplaceAll_cons_pos (d ++ R) d rep hd hpre hne]
  rw [List.drop_left]
  rw [goReplaceAll_no_occur d rep hd R hR]

theorem fragOfParam_definition (nm : List Char) (o : Bool) :
    (fragOfParam nm o).definition = '/' :: ':' :: (nm ++ if o then ['?'] else []) := rfl

theorem formatFragment_fragOfParam (nm : List Char) (o : Bool) :
    formatFragment (fragOfParam nm o) = substSeg (Seg.param nm o) := by
  cases o <;> rfl

theorem subst_fold : ∀ (segs : List Seg), ∀ (P tail0 : List Char),
    (∀ s ∈ segs, segWFB s = true) → namesOKB (paramNames segs) = true →
    noPair '/' ':' P = true → P.getLast? ≠ some '/' →
    tail0 = [] ∨ tail0 = ['/', '?'] →
    (fragsOfSegs segs).foldl
        (fun comp f => goReplaceAll comp f.definition (formatFragment f))
        (P ++ (renderSegs segs ++ tail0)) =
      P ++ ((segs.map substSeg).flatten ++ tail0) := by
  intro segs
  induction segs with
  | nil =>
      intro P tail0 _ _ _ _ _
      simp [fragsOfSegs, renderSegs]
  | cons seg rest ih =>
      intro P tail0 hwf hnames hP1 hP2 htail
      have hwf' : ∀ s ∈ rest, segWFB s = true :=
        fun s hs => hwf s (List.mem_cons_of_mem _ hs)
      cases seg with
      | lit w =>
          obtain ⟨hne, hall⟩ := wordishB_parts w (hwf (Seg.lit w) (by simp))
          have hshape : P ++ (renderSegs (Seg.lit w :: rest) ++ tail0) =
              (P ++ ('/' :: w)) ++ (renderSegs rest ++ tail0) := by
            simp [renderSegs, renderSeg]
          have hfrags : fragsOfSegs (Seg.lit w :: rest) = fragsOfSegs rest := rfl
          have hbd : ¬(P.getLast? = some '/' ∧ ('/' :: w).head? = some ':') := by
            intro hx
            rw [List.head?_cons] at hx
            exact absurd (Option.some.inj hx.2) (by decide)
          have hP1' : noPair '/' ':' (P ++ '/' :: w) = true :=
            noPair_append '/' ':' P ('/' :: w) hP1 (noPair_slash_word w hall) hbd
          have hP2' : (P ++ '/' :: w).getLast? ≠ some '/' := by
            rw [getLast?_append_cons]
            cases w with
            | nil => exact absurd rfl hne
            | cons a w2 =>
                rw [List.getLast?_cons_cons]
                intro hlast
                have hmem := getLast?_all (a :: w2) isWordChar
                  (List.all_eq_true.mpr (fun c hc => hall c hc)) '/' hlast
                exact absurd hmem (by decide)
          rw [hfrags, hshape, ih (P ++ ('/' :: w)) tail0 hwf' hnames hP1' hP2' htail]
          simp [substSeg]
      | param nm o =>
          obtain ⟨hne, hall⟩ := wordishB_parts nm (hwf (Seg.param nm o) (by simp))
          have hfrags : fragsOfSegs (Seg.param nm o :: rest) =
              fragOfParam nm o :: fragsOfSegs rest := rfl
          have hd : (fragOfParam nm o).definition =
              '/' :: ':' :: (nm ++ if o then ['?'] else []) := rfl
          have hshape : P ++ (renderSegs (Seg.param nm o :: rest) ++ tail0) =
              P ++ (('/' :: ':' :: (nm ++ if o then ['?'] else [])) ++
                (renderSegs rest ++ tail0)) := by
            cases o <;> simp [renderSegs, renderSeg]
          have hnp := namesOKB_parts nm (paramNames rest) hnames
          have hinc' : ∀ nm2 o2, Seg.param nm2 o2 ∈ rest → incompB nm nm2 = true :=
            fun nm2 o2 h2 => hnp.1 nm2 (mem_paramNames rest nm2 o2 h2)
          have hR : ∀ n, ¬ (('/' :: ':' :: (nm ++ if o then ['?'] else [])) <+:
              (renderSegs rest ++ tail0).drop n) :=
            render_no_defn_occur nm (if o then ['?'] else []) rest hwf' hinc' tail0 htail
          have hPocc : ∀ n, n < P.length →
              ¬ (('/' :: ':' :: (nm ++ if o then ['?'] else [])) <+:
                (P ++ (('/' :: ':' :: (nm ++ if o then ['?'] else [])) ++
                  (renderSegs rest ++ tail0))).drop n) :=
            fun n hn => no_defn_occur_in_prefix (nm ++ if o then ['?'] else [])
              P hP1 hP2 _ n hn
          have happ : goReplaceAll (P ++ (renderSegs (Seg.param nm o :: rest) ++ tail0))
              (fragOfParam nm o).definition (formatFragment (fragOfParam nm o)) =
              (P ++ substSeg (Seg.param nm o)) ++ (renderSegs rest ++ tail0) := by
            rw [hshape, hd, formatFragment_fragOfParam]
            rw [goReplaceAll_exact P ('/' :: ':' :: (nm ++ if o then ['?'] else []))
              (renderSegs rest ++ tail0) (substSeg (Seg.param nm o)) (by simp) hPocc hR]
            rw [List.append_assoc]
          have hP1' : noPair '/' ':' (P ++ substSeg (Seg.param nm o)) = true := by
            cases o with
            | false =>
                rw [show substSeg (Seg.param nm false) = "/(?:([^/]+?))".data from rfl]
                refine noPair_append '/' ':' P _ hP1 (by decide) ?_
                intro hx
                exact absurd hx.2 (by decide)
            | true =>
                rw [show substSeg (Seg.param nm true) = "(?:/([^/]+?))?".data from rfl]
                refine noPair_append '/' ':' P _ hP1 (by decide) ?_
                intro hx
                exact absurd hx.2 (by decide)
          have hP2' : (P ++ substSeg (Seg.param nm o)).getLast? ≠ some '/' := by
            cases o with
            | false =>
                rw [show substSeg (Seg.param nm false) =
                      '/' :: "(?:([^/]+?))".data from rfl, getLast?_append_cons]
                decide
            | true =>
                rw [show substSeg (Seg.param nm true) =
                      '(' :: "?:/([^/]+?))?".data from rfl, getLast?_append_cons]
                decide
          rw [hfrags, List.foldl_cons, happ,
            ih (P ++ substSeg (Seg.param nm o)) tail0 hwf' hnp.2 hP1' hP2' htail]
          simp

theorem replaceSlashes_append (A B : List Char) :
    replaceSlashes (A ++ B) = replaceSlashes A ++ replaceSlashes B := by
  simp [replaceSlashes]

theorem replaceSlashes_cons (c : Char) (t : List Char) :
    replaceSlashes (c :: t) =
      (if c = '/' ∨ c = '.' then ['\\', c] else [c]) ++ replaceSlashes t := by
  simp [replaceSlashes]

theorem replaceSlashes_word (w : List Char) (hw : ∀ c ∈ w, isWordChar c = true) :
    replaceSlashes w = w := by
  induction w with
  | nil => rfl
  | cons c t ih =>
      have hc := hw c (by simp)
      have hnc : ¬(c = '/' ∨ c = '.') := by
        rintro (rfl | rfl) <;> exact absurd hc (by decide)
      rw [replaceSlashes_cons, if_neg hnc, List.singleton_append,
        ih (fun d hd => hw d (List.mem_cons_of_mem _ hd))]

theorem replaceSlashes_substSeg (s : Seg) (h : segWFB s = true) :
    replaceSlashes (substSeg s) = escSeg s := by
  cases s with
  | lit w =>
      obtain ⟨-, hall⟩ := wordishB_parts w h
      show replaceSlashes ('/' :: w) = '\\' :: '/' :: w
      rw [replaceSlashes_cons, if_pos (Or.inl rfl), replaceSlashes_word w hall]
      rfl
  | param nm o => cases o <;> rfl

theorem replaceSlashes_flatten_subst (segs : List Seg)
    (hwf : ∀ s ∈ segs, segWFB s = true) :
    replaceSlashes ((segs.map substSeg).flatten) = (segs.map escSeg).flatten := by
  induction segs with
  | nil => rfl
  | cons s rest ih =>
      rw [List.map_cons, List.flatten_cons, replaceSlashes_append,
        replaceSlashes_substSeg s (hwf s (by simp)),
        ih (fun t ht => hwf t (List.mem_cons_of_mem _ ht)),
        List.map_cons, List.flatten_cons]

theorem replaceWildcards_cons (c : Char) (t : List Char) :
    replaceWildcards (c :: t) =
      (if c = '*' then "(.*)".data else [c]) ++ replaceWildcards t := by
  simp [replaceWildcards]

theorem replaceWildcards_eq_self : ∀ (s : List Char), (∀ c ∈ s, c ≠ '*') →
    replaceWildcards s = s
  | [], _ => rfl
  | c :: t, h => by
      rw [replaceWildcards_cons, if_neg (h c (by simp)), List.singleton_append,
        replaceWildcards_eq_self t (fun d hd => h d (List.mem_cons_of_mem _ hd))]

theorem escSeg_no_star (s : Seg) (h : segWFB s = true) : ∀ c ∈ escSeg s, c ≠ '*' := by
  cases s with
  | lit w =>
      obtain ⟨-, hall⟩ := wordishB_parts w h
      intro c hc
      rw [show escSeg (Seg.lit w) = '\\' :: '/' :: w from rfl] at hc
      rcases List.mem_cons.mp hc with rfl | hc2
      · decide
      rcases List.mem_cons.mp hc2 with rfl | hc3
      · decide
      · intro hstar
        rw [hstar] at hc3
        exact absurd (hall '*' hc3) (by decide)
  | param nm o =>
      cases o with
      | false =>
          rw [show escSeg (Seg.param nm false) = "\\/(?:([^\\/]+?))".data from rfl]
          decide
      | true =>
          rw [show escSeg (Seg.param nm true) = "(?:\\/([^\\/]+?))?".data from rfl]
          decide

theorem renderSegs_chars : ∀ (segs : List Seg), (∀ s ∈ segs, segWFB s = true) →
    ∀ c ∈ renderSegs segs, c = '/' ∨ c = ':' ∨ c = '?' ∨ isWordChar c = true
  | [], _ => by
      intro c hc
      rw [show renderSegs [] = [] from rfl] at hc
      cases hc
  | seg :: rest, hwf => by
      intro c hc
      have hr : renderSegs (seg :: rest) = renderSeg seg ++ renderSegs rest := by
        simp [renderSegs]
      rw [hr, List.mem_append] at hc
      rcases hc with hc | hc
      · cases seg with
        | lit w =>
            obtain ⟨-, hall⟩ := wordishB_parts w (hwf (Seg.lit w) (by simp))
            rw [show renderSeg (Seg.lit w) = '/' :: w from rfl] at hc
            rcases List.mem_cons.mp hc with rfl | hc2
            · exact Or.inl rfl
            · exact Or.inr (Or.inr (Or.inr (hall c hc2)))
        | param nm o =>
            obtain ⟨-, hall⟩ := wordishB_parts nm (hwf (Seg.param nm o) (by simp))
            rw [show renderSeg (Seg.param nm o) =
                  '/' :: ':' :: (nm ++ if o then ['?'] else []) from rfl] at hc
            rcases List.mem_cons.mp hc with rfl | hc2
            · exact Or.inl rfl
            rcases List.mem_cons.mp hc2 with rfl | hc3
            · exact Or.inr (Or.inl rfl)
            rw [List.mem_append] at hc3
            rcases hc3 with hc4 | hc4
            · exact Or.inr (Or.inr (Or.inr (hall c hc4)))
            · cases o with
              | true =>
                  simp only [if_true] at hc4
                  rcases List.mem_singleton.mp hc4 with rfl
                  exact Or.inr (Or.inr (Or.inl rfl))
              | false =>
                  simp at hc4
      · exact renderSegs_chars rest (fun s hs => hwf s (List.mem_cons_of_mem _ hs)) c hc

theorem compiledPattern_render (segs : List Seg) (strict : Bool)
    (hwf : ∀ s ∈ segs, segWFB s = true) (hnames : namesOKB (paramNames segs) = true) :
    compiledPattern (renderSegs segs) strict =
      (segs.map escSeg).flatten ++ (if strict then [] else ['\\', '/', '?']) := by
  have hchars := renderSegs_chars segs hwf
  have hnp : '(' ∉ renderSegs segs := by
    intro hmem
    rcases hchars '(' hmem with h | h | h | h
    · exact absurd h (by decide)
    · exact absurd h (by decide)
    · exact absurd h (by decide)
    · exact absurd h (by decide)
  have h0 : replaceCaptureParams (renderSegs segs) = renderSegs segs :=
    replaceCaptureParams_eq_self _ hnp
  have hstar : ∀ c ∈ (segs.map escSeg).flatten, c ≠ '*' := by
    intro c hc
    rw [List.mem_flatten] at hc
    obtain ⟨l, hl, hcl⟩ := hc
    rw [List.mem_map] at hl
    obtain ⟨s, hs, rfl⟩ := hl
    exact escSeg_no_star s (hwf s hs) c hcl
  unfold compiledPattern
  rw [split_render segs hwf, h0]
  cases strict with
  | true =>
      show replaceWildcards (replaceSlashes (List.foldl
          (fun comp f => goReplaceAll comp f.definition (formatFragment f))
          (renderSegs segs) (fragsOfSegs segs))) =
        (segs.map escSeg).flatten ++ []
      have hfold := subst_fold segs [] [] hwf hnames rfl (by simp) (Or.inl rfl)
      simp only [List.nil_append, List.append_nil] at hfold
      rw [hfold, replaceSlashes_flatten_subst segs hwf,
        replaceWildcards_eq_self _ hstar, List.append_nil]
  | false =>
      show replaceWildcards (replaceSlashes (List.foldl
          (fun comp f => goReplaceAll comp f.definition (formatFragment f))
          (renderSegs segs ++ ['/', '?']) (fragsOfSegs segs))) =
        (segs.map escSeg).flatten ++ ['\\', '/', '?']
      have hfold := subst_fold segs [] ['/', '?'] hwf hnames rfl (by simp) (Or.inr rfl)
      simp only [List.nil_append] at hfold
      rw [hfold, replaceSlashes_append, replaceSlashes_flatten_subst segs hwf]
      rw [show replaceSlashes ['/', '?'] = ['\\', '/', '?'] from rfl]
      have hstar2 : ∀ c ∈ (segs.map escSeg).flatten ++ ['\\', '/', '?'], c ≠ '*' := by
        intro c hc
        rcases List.mem_append.mp hc with h | h
        · exact hstar c h
        · simp only [List.mem_cons] at h
          rcases h with rfl | rfl | rfl | h4
          · decide
          · decide
          · decide
          · cases h4
      rw [replaceWildcards_eq_self _ hstar2]

/-! ### Tokenizing the compiled template -/

theorem tokenizeStep_escSlash (rest : List Char) :
    tokenizeStep ('\\' :: '/' :: rest) = .emit (.lit '/') rest := rfl

theorem tokenizeStep_lpnc (rest : List Char) :
    tokenizeStep ('(' :: '?' :: ':' :: rest) = .emit .lpnc rest := rfl

theorem tokenizeStep_lpBracket (rest : List Char) :
    tokenizeStep ('(' :: '[' :: rest) = .emit .lp ('[' :: rest) := rfl

theorem tokenizeStep_plusLazy (rest : List Char) :
    tokenizeStep ('+' :: '?' :: ')' :: rest) = .emit .tplus (')' :: rest) := rfl

theorem tokenizeStep_rp (rest : List Char) :
    tokenizeStep (')' :: rest) = .emit .rp rest := rfl

theorem stripLazy_eq_self (s : List Char) (h : headIsQuant s = false) : stripLazy s = s := by
  cases s with
  | nil => rfl
  | cons c t =>
      have hq : c ≠ '?' := by
        intro hc
        subst hc
        simp [headIsQuant, isQuantChar] at h
      unfold stripLazy
      split
      · rename_i heq
        exact absurd (List.cons_eq_cons.mp heq).1 hq
      · rfl

theorem tokenize_word_run : ∀ (w S : List Char), (∀ c ∈ w, isWordChar c = true) →
    tokenize (w ++ S) = (tokenize S).map (fun ts => w.map Tok.lit ++ ts)
  | [], S, _ => by
      rw [List.nil_append]
      cases h : tokenize S <;> simp
  | c :: w2, S, hw => by
      rw [List.cons_append,
        tokenize_cons c (w2 ++ S) (.lit c) (w2 ++ S)
          (tokenizeStep_word c (w2 ++ S) (hw c (by simp))),
        tokenize_word_run w2 S (fun d hd => hw d (List.mem_cons_of_mem _ hd))]
      cases h : tokenize S <;> simp

theorem tokenize_escSeg (s : Seg) (hwf : segWFB s = true) (S : List Char)
    (hS : headIsQuant S = false) :
    tokenize (escSeg s ++ S) = (tokenize S).map (fun ts => segToks s ++ ts) := by
  cases s with
  | lit w =>
      obtain ⟨-, hall⟩ := wordishB_parts w hwf
      show tokenize ('\\' :: '/' :: (w ++ S)) = _
      rw [tokenize_cons _ _ _ _ (tokenizeStep_escSlash (w ++ S)),
        tokenize_word_run w S hall]
      cases h : tokenize S <;> simp [segToks]
  | param nm o =>
      cases o with
      | false =>
          show tokenize ('\\' :: '/' :: '(' :: '?' :: ':' :: '(' :: '[' :: '^' :: '\\' ::
            '/' :: ']' :: '+' :: '?' :: ')' :: ')' :: S) = _
          rw [tokenize_cons _ _ _ _ (tokenizeStep_escSlash _),
            tokenize_cons _ _ _ _ (tokenizeStep_lpnc _),
            tokenize_cons _ _ _ _ (tokenizeStep_lpBracket _),
            tokenize_cons _ _ _ _ (tokenizeStep_clsNoSlash _),
            tokenize_cons _ _ _ _ (tokenizeStep_plusLazy _),
            tokenize_cons _ _ _ _ (tokenizeStep_rp _),
            tokenize_cons _ _ _ _ (tokenizeStep_rp _)]
          cases h : tokenize S <;> simp [segToks]
      | true =>
          show tokenize ('(' :: '?' :: ':' :: '\\' :: '/' :: '(' :: '[' :: '^' :: '\\' ::
            '/' :: ']' :: '+' :: '?' :: ')' :: ')' :: '?' :: S) = _
          rw [tokenize_cons _ _ _ _ (tokenizeStep_lpnc _),
            tokenize_cons _ _ _ _ (tokenizeStep_escSlash _),
            tokenize_cons _ _ _ _ (tokenizeStep_lpBracket _),
            tokenize_cons _ _ _ _ (tokenizeStep_clsNoSlash _),
            tokenize_cons _ _ _ _ (tokenizeStep_plusLazy _),
            tokenize_cons _ _ _ _ (tokenizeStep_rp _),
            tokenize_cons _ _ _ _ (tokenizeStep_rp _),
            tokenize_cons _ _ _ _ (tokenizeStep_topt S (stripLazy_eq_self S hS) hS)]
          cases h : tokenize S <;> simp [segToks]

theorem headIsQuant_escSeg_append (s : Seg) (S : List Char) :
    headIsQuant (escSeg s ++ S) = false := by
  cases s with
  | lit w => rfl
  | param nm o => cases o <;> rfl

theorem tokenize_escSegs : ∀ (segs : List Seg), (∀ s ∈ segs, segWFB s = true) →
    ∀ (S : List Char), headIsQuant S = false →
    tokenize ((segs.map escSeg).flatten ++ S) =
      (tokenize S).map (fun ts => (segs.map segToks).flatten ++ ts)
  | [], _, S, _ => by
      rw [show ((List.map escSeg []).flatten : List Char) = [] from rfl, List.nil_append]
      cases h : tokenize S <;> simp
  | s :: rest, hwf, S, hS => by
      have hrec := tokenize_escSegs rest (fun t ht => hwf t (List.mem_cons_of_mem _ ht)) S hS
      have hhd : headIsQuant ((rest.map escSeg).flatten ++ S) = false := by
        cases rest with
        | nil => exact hS
        | cons s2 r2 =>
            rw [show ((s2 :: r2).map escSeg).flatten ++ S =
                  escSeg s2 ++ ((r2.map escSeg).flatten ++ S) from by simp]
            exact headIsQuant_escSeg_append s2 _
      rw [show ((s :: rest).map escSeg).flatten ++ S =
            escSeg s ++ ((rest.map escSeg).flatten ++ S) from by simp,
        tokenize_escSeg s (hwf s (by simp)) _ hhd, hrec]
      cases h : tokenize S <;> simp

theorem tokenize_escTail : tokenize ['\\', '/', '?'] = some [Tok.lit '/', Tok.topt] := by
  rw [tokenize_cons _ _ _ _ (tokenizeStep_escSlash ['?']),
    tokenize_cons _ _ _ _ (tokenizeStep_topt [] rfl rfl)]
  rfl

/-! ### Parsing the compiled token stream -/

theorem foldlM_litToks : ∀ (w : List Char) (st : PState),
    List.foldlM stepTok st (w.map Tok.lit) =
      some { st with cur := (w.map Regex.char).reverse ++ st.cur }
  | [], st => by simp
  | c :: w2, st => by
      have h1 : List.foldlM stepTok st (Tok.lit c :: w2.map Tok.lit) =
          List.foldlM stepTok { st with cur := .char c :: st.cur } (w2.map Tok.lit) := rfl
      rw [List.map_cons, h1, foldlM_litToks w2 _]
      simp

theorem foldlM_paramReqToks (nm : List Char) (st : PState) :
    List.foldlM stepTok st (segToks (Seg.param nm false)) =
      some { st with cur := plusNoSlash :: Regex.char '/' :: st.cur } := rfl

theorem foldlM_paramOptToks (nm : List Char) (st : PState) :
    List.foldlM stepTok st (segToks (Seg.param nm true)) =
      some { st with cur := optGroup :: st.cur } := rfl

theorem foldlM_segToks (s : Seg) (st : PState) :
    List.foldlM stepTok st (segToks s) =
      some { st with cur := (segFactors s).reverse ++ st.cur } := by
  cases s with
  | lit w =>
      have h1 : List.foldlM stepTok st (segToks (Seg.lit w)) =
          List.foldlM stepTok { st with cur := .char '/' :: st.cur } (w.map Tok.lit) := rfl
      rw [h1, foldlM_litToks w _]
      simp [segFactors]
  | param nm o =>
      cases o with
      | false => exact foldlM_paramReqToks nm st
      | true => exact foldlM_paramOptToks nm st

theorem foldlM_segsToks : ∀ (segs : List Seg) (st : PState),
    List.foldlM stepTok st ((segs.map segToks).flatten) =
      some { st with cur := (segs.map segFactors).flatten.reverse ++ st.cur }
  | [], st => by simp
  | s :: rest, st => by
      rw [show ((s :: rest).map segToks).flatten =
            segToks s ++ (rest.map segToks).flatten from by simp,
        List.foldlM_append, foldlM_segToks s st]
      have hbind : (some { st with cur := (segFactors s).reverse ++ st.cur } >>=
          fun b => List.foldlM stepTok b ((rest.map segToks).flatten)) =
          List.foldlM stepTok { st with cur := (segFactors s).reverse ++ st.cur }
            ((rest.map segToks).flatten) := rfl
      rw [hbind, foldlM_segsToks rest _]
      simp

theorem parseToks_segs_strict (segs : List Seg) :
    parseToks ((segs.map segToks).flatten) = some (segsRegex segs true) := by
  unfold parseToks
  rw [foldlM_segsToks segs ⟨[], [], []⟩]
  show some (altList [catList (((segs.map segFactors).flatten.reverse ++
      ([] : List Regex)).reverse)]) =
    some (segsRegex segs true)
  rw [List.append_nil, List.reverse_reverse]
  show some (catList ((segs.map segFactors).flatten)) = _
  rw [show segsRegex segs true = catList ((segs.map segFactors).flatten ++ []) from rfl,
    List.append_nil]

theorem parseToks_segs_unstrict (segs : List Seg) :
    parseToks ((segs.map segToks).flatten ++ [Tok.lit '/', Tok.topt]) =
      some (segsRegex segs false) := by
  unfold parseToks
  rw [List.foldlM_append, foldlM_segsToks segs ⟨[], [], []⟩]
  show some (altList [catList ((Regex.alt (.char '/') .eps ::
      ((segs.map segFactors).flatten.reverse ++ ([] : List Regex))).reverse)]) =
    some (segsRegex segs false)
  rw [List.append_nil, List.reverse_cons, List.reverse_reverse]
  rfl

theorem compileAnchored_cons (rest : List Char) :
    compileAnchored ('^' :: rest) =
      (if rest.getLast? = some '$' then
        match tokenize rest.dropLast with
        | none => none
        | some ts => parseToks ts
      else none) := rfl

theorem compileAnchored_render (segs : List Seg) (strict : Bool)
    (hwf : ∀ s ∈ segs, segWFB s = true) (hnames : namesOKB (paramNames segs) = true) :
    compileAnchored (anchorPattern (compiledPattern (renderSegs segs) strict)) =
      some (segsRegex segs strict) := by
  rw [compiledPattern_render segs strict hwf hnames]
  cases strict with
  | true =>
      rw [show (if true then ([] : List Char) else ['\\', '/', '?']) = [] from rfl,
        List.append_nil]
      have htok : tokenize ((segs.map escSeg).flatten) =
          some ((segs.map segToks).flatten) := by
        have h := tokenize_escSegs segs hwf [] rfl
        rw [List.append_nil] at h
        rw [h, show tokenize [] = some [] from rfl]
        simp
      show compileAnchored ('^' :: ((segs.map escSeg).flatten ++ ['$'])) = _
      rw [compileAnchored_cons, getLast?_append_cons,
        show (['$'] : List Char).getLast? = some '$' from rfl, if_pos rfl,
        List.dropLast_concat, htok]
      exact parseToks_segs_strict segs
  | false =>
      rw [show (if false then ([] : List Char) else ['\\', '/', '?']) = ['\\', '/', '?']
            from rfl]
      have htok : tokenize ((segs.map escSeg).flatten ++ ['\\', '/', '?']) =
          some ((segs.map segToks).flatten ++ [Tok.lit '/', Tok.topt]) := by
        rw [tokenize_escSegs segs hwf ['\\', '/', '?'] rfl, tokenize_escTail]
        rfl
      show compileAnchored ('^' :: (((segs.map escSeg).flatten ++ ['\\', '/', '?']) ++
        ['$'])) = _
      rw [compileAnchored_cons, getLast?_append_cons,
        show (['$'] : List Char).getLast? = some '$' from rfl, if_pos rfl,
        List.dropLast_concat, htok]
      exact parseToks_segs_unstrict segs

/-! ### The language of a compiled simple template -/

theorem catList_cons_lang (r : Regex) (rs : List Regex) (s : List Char) :
    (catList (r :: rs)).Lang s ↔ ∃ t u, s = t ++ u ∧ r.Lang t ∧ (catList rs).Lang u := by
  cases rs with
  | nil =>
      constructor
      · intro h
        exact ⟨s, [], (List.append_nil s).symm, h, rfl⟩
      · rintro ⟨t, u, rfl, ht, hu⟩
        have hu' : u = [] := hu
        subst hu'
        rw [List.append_nil]
        exact ht
  | cons b bs => exact Iff.rfl

theorem catList_append_lang : ∀ (A B : List Regex) (s : List Char),
    (catList (A ++ B)).Lang s ↔
      ∃ u v, s = u ++ v ∧ (catList A).Lang u ∧ (catList B).Lang v
  | [], B, s => by
      constructor
      · intro h
        exact ⟨[], s, rfl, rfl, h⟩
      · rintro ⟨u, v, rfl, hu, hv⟩
        have hu' : u = [] := hu
        subst hu'
        rw [List.nil_append]
        exact hv
  | a :: A2, B, s => by
      rw [List.cons_append]
      simp only [catList_cons_lang]
      constructor
      · rintro ⟨t, u, rfl, ht, hu⟩
        obtain ⟨u2, v, rfl, h2, hv⟩ := (catList_append_lang A2 B u).mp hu
        exact ⟨t ++ u2, v, (List.append_assoc t u2 v).symm, ⟨t, u2, rfl, ht, h2⟩, hv⟩
      · rintro ⟨u, v, rfl, ⟨t, u3, rfl, ht, h3⟩, hv⟩
        exact ⟨t, u3 ++ v, List.append_assoc t u3 v, ht,
          (catList_append_lang A2 B _).mpr ⟨u3, v, rfl, h3, hv⟩⟩

theorem catList_chars_lang : ∀ (w : List Char) (s : List Char),
    (catList (w.map Regex.char)).Lang s ↔ s = w
  | [], _ => Iff.rfl
  | c :: w2, s => by
      rw [List.map_cons, catList_cons_lang]
      constructor
      · rintro ⟨t, u, rfl, ht, hu⟩
        have ht' : t = [c] := ht
        have hu' := (catList_chars_lang w2 u).mp hu
        subst ht'
        subst hu'
        rfl
      · rintro rfl
        exact ⟨[c], w2, rfl, rfl, (catList_chars_lang w2 w2).mpr rfl⟩

theorem clsNoSlash_lang (s : List Char) :
    clsNoSlash.Lang s ↔ ∃ c, s = [c] ∧ c ≠ '/' := by
  show (Regex.cls true [.single '/']).Lang s ↔ _
  rw [lang_cls]
  constructor
  · rintro ⟨c, rfl, hc⟩
    refine ⟨c, rfl, ?_⟩
    intro h
    subst h
    simp [classMatch, classItemMatch] at hc
  · rintro ⟨c, rfl, hc⟩
    refine ⟨c, rfl, ?_⟩
    simp [classMatch, classItemMatch]
    exact hc

theorem flatten_singletons : ∀ (s : List Char), (s.map (fun c => [c])).flatten = s
  | [] => rfl
  | c :: s2 => by
      rw [List.map_cons, List.flatten_cons, flatten_singletons s2]
      rfl

theorem plusNoSlash_lang (s : List Char) :
    plusNoSlash.Lang s ↔ s ≠ [] ∧ '/' ∉ s := by
  constructor
  · rintro ⟨t, u, rfl, ht, hu⟩
    obtain ⟨c, rfl, hc⟩ := (clsNoSlash_lang t).mp ht
    obtain ⟨parts, rfl, hparts⟩ := hu
    constructor
    · simp
    · intro hmem
      rw [List.cons_append] at hmem
      rcases List.mem_cons.mp hmem with h1 | h2
      · exact hc h1.symm
      · rw [List.nil_append, List.mem_flatten] at h2
        obtain ⟨l, hl, hcl⟩ := h2
        obtain ⟨c2, rfl, hc2⟩ := (clsNoSlash_lang l).mp (hparts l hl).2
        rcases List.mem_singleton.mp hcl with rfl
        exact hc2 rfl
  · rintro ⟨hne, hns⟩
    cases s with
    | nil => exact absurd rfl hne
    | cons c s2 =>
        refine ⟨[c], s2, rfl, ?_, ?_⟩
        · exact (clsNoSlash_lang [c]).mpr ⟨c, rfl, fun h => hns (by simp [h])⟩
        · refine ⟨s2.map (fun d => [d]), (flatten_singletons s2).symm, ?_⟩
          intro p hp
          rw [List.mem_map] at hp
          obtain ⟨d, hd, rfl⟩ := hp
          refine ⟨by simp, (clsNoSlash_lang [d]).mpr ⟨d, rfl, ?_⟩⟩
          intro h
          subst h
          exact hns (List.mem_cons_of_mem _ hd)

theorem segFactors_lit_lang (w s : List Char) :
    (catList (segFactors (Seg.lit w))).Lang s ↔ s = '/' :: w := by
  show (catList (Regex.char '/' :: w.map Regex.char)).Lang s ↔ _
  rw [catList_cons_lang]
  constructor
  · rintro ⟨t, u, rfl, ht, hu⟩
    have ht' : t = ['/'] := ht
    have hu' := (catList_chars_lang w u).mp hu
    subst ht'
    subst hu'
    rfl
  · rintro rfl
    exact ⟨['/'], w, rfl, rfl, (catList_chars_lang w w).mpr rfl⟩

theorem segFactors_req_lang (nm : List Char) (s : List Char) :
    (catList (segFactors (Seg.param nm false))).Lang s ↔
      ∃ v, s = '/' :: v ∧ v ≠ [] ∧ '/' ∉ v := by
  show (catList [Regex.char '/', plusNoSlash]).Lang s ↔ _
  rw [catList_cons_lang]
  constructor
  · rintro ⟨t, u, rfl, ht, hu⟩
    have ht' : t = ['/'] := ht
    subst ht'
    obtain ⟨hne, hns⟩ := (plusNoSlash_lang u).mp hu
    exact ⟨u, rfl, hne, hns⟩
  · rintro ⟨v, rfl, hne, hns⟩
    exact ⟨['/'], v, rfl, rfl, (plusNoSlash_lang v).mpr ⟨hne, hns⟩⟩

theorem segFactors_opt_lang (nm : List Char) (s : List Char) :
    (catList (segFactors (Seg.param nm true))).Lang s ↔
      (s = [] ∨ ∃ v, s = '/' :: v ∧ v ≠ [] ∧ '/' ∉ v) := by
  show optGroup.Lang s ↔ _
  show ((Regex.cat (.char '/') plusNoSlash).Lang s ∨ Regex.eps.Lang s) ↔ _
  constructor
  · rintro (⟨t, u, rfl, ht, hu⟩ | he)
    · have ht' : t = ['/'] := ht
      subst ht'
      obtain ⟨hne, hns⟩ := (plusNoSlash_lang u).mp hu
      exact Or.inr ⟨u, rfl, hne, hns⟩
    · exact Or.inl he
  · rintro (rfl | ⟨v, rfl, hne, hns⟩)
    · exact Or.inr rfl
    · exact Or.inl ⟨['/'], v, rfl, rfl, (plusNoSlash_lang v).mpr ⟨hne, hns⟩⟩

theorem segsLang_nil (p : List Char) : SegsLang [] p ↔ p = [] := Iff.rfl

theorem segsLang_cons_iff (s : Seg) (rest : List Seg) (p : List Char) :
    SegsLang (s :: rest) p ↔
      ∃ u v, p = u ++ v ∧ (catList (segFactors s)).Lang u ∧ SegsLang rest v := by
  show (catList (((s :: rest).map segFactors).flatten)).Lang p ↔ _
  rw [show ((s :: rest).map segFactors).flatten =
        segFactors s ++ (rest.map segFactors).flatten from by simp]
  exact catList_append_lang (segFactors s) _ p

theorem segsLang_count : ∀ (segs : List Seg), (∀ s ∈ segs, segWFB s = true) →
    (∀ s ∈ segs, segIsOpt s = false) → ∀ p, SegsLang segs p →
    p.count '/' = segs.length
  | [], _, _, p, hp => by
      have hp' := (segsLang_nil p).mp hp
      subst hp'
      rfl
  | s :: rest, hwf, hreq, p, hp => by
      obtain ⟨u, v, rfl, hu, hv⟩ := (segsLang_cons_iff s rest p).mp hp
      have hcv := segsLang_count rest (fun t ht => hwf t (List.mem_cons_of_mem _ ht))
        (fun t ht => hreq t (List.mem_cons_of_mem _ ht)) v hv
      have hcu : u.count '/' = 1 := by
        cases s with
        | lit w =>
            obtain ⟨-, hall⟩ := wordishB_parts w (hwf (Seg.lit w) (by simp))
            have hu' := (segFactors_lit_lang w u).mp hu
            subst hu'
            have hw0 : w.count '/' = 0 := by
              rw [List.count_eq_zero]
              intro hmem
              exact absurd (hall '/' hmem) (by decide)
            rw [List.count_cons, hw0]
            rfl
        | param nm o =>
            cases o with
            | false =>
                obtain ⟨v', rfl, hne, hns⟩ := (segFactors_req_lang nm u).mp hu
                have h0 : v'.count '/' = 0 := List.count_eq_zero.mpr hns
                rw [List.count_cons, h0]
                rfl
            | true =>
                have hco := hreq (Seg.param nm true) (by simp)
                rw [show segIsOpt (Seg.param nm true) = true from rfl] at hco
                cases hco
      rw [List.count_append, hcu, hcv]
      simp only [List.length_cons]
      omega

theorem segsRegex_required_rejects (base : List Seg) (nm : List Char) (strict : Bool)
    (hwf : ∀ s ∈ base, segWFB s = true) (hreq : ∀ s ∈ base, segIsOpt s = false)
    (p : List Char) (hp : SegsLang base p) :
    (segsRegex (base ++ [Seg.param nm false]) strict).rmatch p = false := by
  rw [Bool.eq_false_iff]
  intro hmatch
  have hlang := (rmatch_iff_lang _ p).mp hmatch
  unfold segsRegex at hlang
  rw [show ((base ++ [Seg.param nm false]).map segFactors).flatten =
        (base.map segFactors).flatten ++ segFactors (Seg.param nm false) from by simp,
    List.append_assoc] at hlang
  obtain ⟨u, rest1, hsplit, hu, hrest⟩ := (catList_append_lang _ _ p).mp hlang
  obtain ⟨v, t, hsplit2, hv, -⟩ := (catList_append_lang _ _ rest1).mp hrest
  obtain ⟨v', rfl, hne, hns⟩ := (segFactors_req_lang nm v).mp hv
  have hcu := segsLang_count base hwf hreq u hu
  have hcp := segsLang_count base hwf hreq p hp
  rw [hsplit, hsplit2, List.count_append, List.count_append, hcu] at hcp
  have hv0 : v'.count '/' = 0 := List.count_eq_zero.mpr hns
  rw [List.count_cons, hv0] at hcp
  simp at hcp

theorem segsRegex_optional_accepts (base : List Seg) (nm : List Char) (strict : Bool)
    (p v : List Char) (hp : SegsLang base p) (hne : v ≠ []) (hns : '/' ∉ v) :
    (segsRegex (base ++ [Seg.param nm true]) strict).rmatch (p ++ '/' :: v) = true ∧
    (segsRegex (base ++ [Seg.param nm true]) strict).rmatch p = true := by
  have htail : (catList (if strict then ([] : List Regex)
      else [Regex.alt (.char '/') .eps])).Lang [] := by
    cases strict with
    | true => rfl
    | false => exact Or.inr rfl
  constructor
  · rw [rmatch_iff_lang]
    unfold segsRegex
    rw [show ((base ++ [Seg.param nm true]).map segFactors).flatten =
          (base.map segFactors).flatten ++ segFactors (Seg.param nm true) from by simp,
      List.append_assoc]
    refine (catList_append_lang _ _ _).mpr ⟨p, '/' :: v, rfl, hp, ?_⟩
    refine (catList_append_lang _ _ _).mpr
      ⟨'/' :: v, [], (List.append_nil _).symm, ?_, htail⟩
    exact (segFactors_opt_lang nm _).mpr (Or.inr ⟨v, rfl, hne, hns⟩)
  · rw [rmatch_iff_lang]
    unfold segsRegex
    rw [show ((base ++ [Seg.param nm true]).map segFactors).flatten =
          (base.map segFactors).flatten ++ segFactors (Seg.param nm true) from by simp,
      List.append_assoc]
    refine (catList_append_lang _ _ _).mpr ⟨p, [], (List.append_nil _).symm, hp, ?_⟩
    refine (catList_append_lang _ _ _).mpr ⟨[], [], rfl, ?_, htail⟩
    exact (segFactors_opt_lang nm _).mpr (Or.inl rfl)

theorem fragsOfSegs_names : ∀ (segs : List Seg),
    (fragsOfSegs segs).map (fun f => f.name) = paramNames segs
  | [] => rfl
  | Seg.lit _ :: rest => fragsOfSegs_names rest
  | Seg.param nm o :: rest => by
      rw [show fragsOfSegs (Seg.param nm o :: rest) =
            fragOfParam nm o :: fragsOfSegs rest from rfl,
        List.map_cons, fragsOfSegs_names rest]
      rfl

theorem NewRoute_render (segs : List Seg) (strict : Bool)
    (hwf : ∀ s ∈ segs, segWFB s = true) (hnames : namesOKB (paramNames segs) = true) :
    NewRoute (String.mk (renderSegs segs)) strict =
      some { path := renderSegs segs, keys := paramNames segs,
             matcher := segsRegex segs strict } := by
  unfold NewRoute
  rw [show (String.mk (renderSegs segs)).data = renderSegs segs from rfl,
    compileAnchored_render segs strict hwf hnames]
  show some (Route.mk (renderSegs segs)
      ((splitRoutePathParams (renderSegs segs)).map (fun f => f.name))
      (segsRegex segs strict)) = _
  rw [split_render segs hwf, fragsOfSegs_names]

/-- **C1, counterexample.**  The claim asserts that for *every* compiled
template whose final parameter lacks a trailing `?` the matcher rejects any
path that omits that final segment.  The template `/:a?/:b` has the
parameters `a` and `b`, and its final parameter `:b` lacks `?`; the path
`/x` omits that final segment (it is exactly a path of the prefix template
`/:a?`, as the second conjunct shows); yet the compiled matcher accepts
`/x`: the earlier optional group is skipped and `x` is reinterpreted as the
value of `:b`. -/
theorem claim_c1_counterexample :
    (NewRoute "/:a?/:b" true).map (fun r => r.keys.map String.mk) = some ["a", "b"] ∧
    (NewRoute "/:a?/:b" true).map (fun r => r.matchString "/x") = some true ∧
    (NewRoute "/:a?" true).map (fun r => r.matchString "/x") = some true := by
  refine ⟨rfl, rfl, rfl⟩

/-- **C1, amended.**  The claimed dichotomy holds for simple templates —
slash-separated word literals and default-capture parameters with pairwise
prefix-incomparable names — whose non-final segments are all required: if
the final parameter lacks `?` the matcher rejects any path supplying
exactly the base segments, and if it carries `?` the matcher accepts the
path both with and without the trailing segment supplied (under either
strictness setting); in particular `NewRoute("/test/:required/:optional?",
false)` matches both `/test/one/two` and `/test/one`.  (The unrestricted
claim fails: an earlier optional parameter can absorb the shift, as in the
counterexample `/:a?/:b` accepting `/x`.) -/
theorem claim_c1_amended_optional_final_segment :
    (∀ (base : List Seg) (nm : List Char) (strict : Bool) (r : Route) (p : List Char),
        (∀ s ∈ base ++ [Seg.param nm false], segWFB s = true) →
        namesOKB (paramNames (base ++ [Seg.param nm false])) = true →
        (∀ s ∈ base, segIsOpt s = false) →
        NewRoute (String.mk (renderSegs (base ++ [Seg.param nm false]))) strict = some r →
        SegsLang base p →
        r.matchString (String.mk p) = false) ∧
    (∀ (base : List Seg) (nm : List Char) (strict : Bool) (r : Route) (p v : List Char),
        (∀ s ∈ base ++ [Seg.param nm true], segWFB s = true) →
        namesOKB (paramNames (base ++ [Seg.param nm true])) = true →
        NewRoute (String.mk (renderSegs (base ++ [Seg.param nm true]))) strict = some r →
        SegsLang base p → v ≠ [] → '/' ∉ v →
        r.matchString (String.mk (p ++ '/' :: v)) = true ∧
        r.matchString (String.mk p) = true) ∧
    ((NewRoute "/test/:required/:optional?" false).map
        (fun r => (r.matchString "/test/one/two", r.matchString "/test/one")) =
      some (true, true)) := by
  refine ⟨?_, ?_, ?_⟩
  · intro base nm strict r p hwf hnames hreq hNR hp
    rw [NewRoute_render _ strict hwf hnames] at hNR
    have hr := Option.some.inj hNR
    subst hr
    exact segsRegex_required_rejects base nm strict
      (fun s hs => hwf s (List.mem_append_left _ hs)) hreq p hp
  · intro base nm strict r p v hwf hnames hNR hp hne hns
    rw [NewRoute_render _ strict hwf hnames] at hNR
    have hr := Option.some.inj hNR
    subst hr
    exact segsRegex_optional_accepts base nm strict p v hp hne hns
  · rfl

/-- Witness for the amended C1 at the template `/test/:required/:optional`
(required final parameter, rejecting `/test/one`) and
`/test/:required/:optional?` (optional final parameter, accepting
`/test/one/two` and `/test/one`). -/
theorem claim_c1_witness :
    (Route.matchString
        { path := renderSegs ([Seg.lit "test".data, Seg.param "required".data false] ++
            [Seg.param "optional".data false]),
          keys := paramNames ([Seg.lit "test".data, Seg.param "required".data false] ++
            [Seg.param "optional".data false]),
          matcher := segsRegex ([Seg.lit "test".data, Seg.param "required".data false] ++
            [Seg.param "optional".data false]) false }
        (String.mk "/test/one".data) = false) ∧
    (Route.matchString
        { path := renderSegs ([Seg.lit "test".data, Seg.param "required".data false] ++
            [Seg.param "optional".data true]),
          keys := paramNames ([Seg.lit "test".data, Seg.param "required".data false] ++
            [Seg.param "optional".data true]),
          matcher := segsRegex ([Seg.lit "test".data, Seg.param "required".data false] ++
            [Seg.param "optional".data true]) false }
        (String.mk ("/test/one".data ++ '/' :: "two".data)) = true ∧
      Route.matchString
        { path := renderSegs ([Seg.lit "test".data, Seg.param "required".data false] ++
            [Seg.param "optional".data true]),
          keys := paramNames ([Seg.lit "test".data, Seg.param "required".data false] ++
            [Seg.param "optional".data true]),
          matcher := segsRegex ([Seg.lit "test".data, Seg.param "required".data false] ++
            [Seg.param "optional".data true]) false }
        (String.mk "/test/one".data) = true) :=
  ⟨claim_c1_amended_optional_final_segment.1
      [Seg.lit "test".data, Seg.param "required".data false] "optional".data false _
      "/test/one".data (by decide) (by decide) (by decide) rfl
      ((rmatch_iff_lang _ _).mp (by decide)),
    claim_c1_amended_optional_final_segment.2.1
      [Seg.lit "test".data, Seg.param "required".data false] "optional".data false _
      "/test/one".data "two".data (by decide) (by decide) rfl
      ((rmatch_iff_lang _ _).mp (by decide)) (by decide) (by decide)⟩

end Dispatcher
